import Mathlib

/-!
Verification development for the snakemake_unit_tests core engine.

The data model and operations below are shallow embeddings of the C++
sources under src/snakemake_unit_tests.  Strings are modelled as Lean
`String` (with `List Char` views where structural reasoning is needed),
C++ `std::vector`/`std::list` as `List`, `std::map` as association lists
(first binding wins on lookup, mirroring lookup through `find`), and
`boost::shared_ptr<recipe>` identity as the index of the recipe in the
loaded recipe vector.  Fallible operations return `Except`/`Option`.
-/

namespace SnakemakeUT

/-- Embedding of `recipe` from src/snakemake_unit_tests/solved_rules.h:
rule name, checkpoint flag, checkpoint-affected flag, ordered input
paths, ordered output paths, optional log filename. -/
structure Recipe where
  rule_name : String
  rule_is_checkpoint : Bool
  checkpoint_update : Bool
  inputs : List String
  outputs : List String
  log : String
deriving DecidableEq, Repr

/-- Embedding of `recipe::recipe()` (solved_rules.h lines 37-41). -/
def Recipe.init : Recipe :=
  { rule_name := "", rule_is_checkpoint := false, checkpoint_update := false,
    inputs := [], outputs := [], log := "" }

/-- Embedding of `recipe::is_checkpoint` (solved_rules.h line 72). -/
def Recipe.is_checkpoint (r : Recipe) : Bool := r.rule_is_checkpoint

/-- Embedding of `recipe::is_checkpoint_update` (solved_rules.h line 82). -/
def Recipe.is_checkpoint_update (r : Recipe) : Bool := r.checkpoint_update

/-- Embedding of `recipe::clear` (solved_rules.h lines 125-129): empties
the rule name, the log filename, the input list and the output list; the
two checkpoint flags are not touched. -/
def Recipe.clear (r : Recipe) : Recipe :=
  { r with rule_name := "", log := "", inputs := [], outputs := [] }

/-- Embedding of `rule_block` (rule_block.h is absent from src/; the
fields are those exercised by src/snakemake_unit_tests/rule_blockTest.cc
and by snakemake_file.cc: rule name, base rule name, checkpoint flag,
docstring, ordered named sub-blocks, free-text code chunk, and the two
indentation depths). -/
structure RuleBlock where
  rule_name : String
  base_rule_name : String
  rule_is_checkpoint : Bool
  docstring : String
  named_blocks : List (String × String)
  code_chunk : List String
  local_indentation : Nat
  global_indentation : Nat
deriving DecidableEq, Repr

/-- Modelled from the spec: `rule_block::operator==` is not under src/
(rule_block.cc is absent); spec section 4.2 defines block equality as
"rule name, base name, checkpoint flag, docstring, code chunk, and full
sub-block mapping must all match". Indentation and resolution state do
not participate. -/
def rule_block_eq (a b : RuleBlock) : Bool :=
  a.rule_name == b.rule_name && a.base_rule_name == b.base_rule_name &&
  a.rule_is_checkpoint == b.rule_is_checkpoint && a.docstring == b.docstring &&
  a.code_chunk == b.code_chunk && a.named_blocks == b.named_blocks

/-- The characters of the include keyword `include:`. -/
def includeKeyword : List Char := ['i', 'n', 'c', 'l', 'u', 'd', 'e', ':']

/-- Modelled from the spec and the in-repository unit tests
(rule_block.cc is absent from src/): a single physical line is an
include-directive line when, after optional leading spaces, it consists
of the keyword `include:` followed by an expression containing at least
one non-space character (rule_blockTest.cc lines 97-116 pin leading and
trailing whitespace handling, bareword expressions, and rejection of
`include thing` and `sinclude: thing`). -/
def isIncludeLineChars (cs : List Char) : Bool :=
  includeKeyword.isPrefixOf (cs.dropWhile (fun c => c == ' ')) &&
  ((cs.dropWhile (fun c => c == ' ')).drop includeKeyword.length).any (fun c => c != ' ')

/-- String-level wrapper for `isIncludeLineChars`. -/
def isIncludeLine (s : String) : Bool := isIncludeLineChars s.data

/-- Modelled from the spec: `rule_block::contains_include_directive`
(rule_block.cc absent from src/) holds exactly when the code chunk is a
single line of include-directive shape; a chunk of two or more lines is
never an include directive (rule_blockTest.cc lines 111-115). -/
def contains_include_chunk (chunk : List String) : Bool :=
  match chunk with
  | [l] => isIncludeLine l
  | _ => false

/-- The function contains_include_directive probes the code chunk of a block. -/
def RuleBlock.contains_include_directive (b : RuleBlock) : Bool :=
  contains_include_chunk b.code_chunk

/-- Drop leading and trailing spaces from a character list. -/
def trimSpaces (cs : List Char) : List Char :=
  ((cs.dropWhile (fun c => c == ' ')).reverse.dropWhile (fun c => c == ' ')).reverse

/-- The expression part of an include-directive line: everything after
the `include:` keyword. -/
def includeExprChars (cs : List Char) : List Char :=
  (cs.dropWhile (fun c => c == ' ')).drop includeKeyword.length

/-- Modelled from the spec: whether an include expression is a
double-quoted string literal (spec 4.1: a line becomes an include
directive "only if `<expr>` is a string literal"; non-literal
expressions stay unresolved). -/
def isStringLiteralExpr (cs : List Char) : Bool :=
  decide (2 ≤ (trimSpaces cs).length) &&
  ((trimSpaces cs).head? == some '"') && ((trimSpaces cs).getLast? == some '"')

/-- Modelled from the spec: `rule_block::is_include_directive`
(rule_block.cc absent from src/): the code chunk is a single
include-directive line whose expression is a string literal. -/
def is_include_chunk (chunk : List String) : Bool :=
  match chunk with
  | [l] => isIncludeLineChars l.data && isStringLiteralExpr (includeExprChars l.data)
  | _ => false

/-- Block-level include-directive test used by the fixpoint loop. -/
def RuleBlock.is_include_directive (b : RuleBlock) : Bool :=
  is_include_chunk b.code_chunk

/-- Modelled from the spec: `rule_block::get_recursive_filename`
(rule_block.cc absent from src/): the filename inside the quotes of the
string-literal expression of the include directive. -/
def get_recursive_filename_chunk (chunk : List String) : String :=
  match chunk with
  | [l] => String.mk ((trimSpaces (includeExprChars l.data)).drop 1).dropLast
  | _ => ""

/-- One pass of the rescan loop of `load_everything` (snakemake_file.cc
lines 77-95): scan the sequence; at an include directive, splice the
expansion of the target file in place of the directive and continue
scanning after the element following the erased directive (the C++
`iter = _blocks.erase(iter)` followed by the `++iter` of the loop skips one
element; when the erased directive was last, incrementing the erase
result past the end leaves the loop, which the model makes explicit).
`env` maps an included filename to the block sequence its lines parse to
(`load_lines` plus `parse_file`, whose segmenter `load_content_block`
is absent from src/).  Returns the new sequence, the number of
splice-and-erase events, and the C++ `unresolved` flag for the pass. -/
def onePass (env : String → List RuleBlock) :
    List RuleBlock → List RuleBlock × Nat × Bool
  | [] => ([], 0, false)
  | b :: rest =>
    if b.is_include_directive then
      match rest with
      | [] => (env (get_recursive_filename_chunk b.code_chunk), 1, true)
      | r :: rs =>
        (env (get_recursive_filename_chunk b.code_chunk) ++ r :: (onePass env rs).1,
          (onePass env rs).2.1 + 1, true)
    else
      (b :: (onePass env rest).1, (onePass env rest).2.1, (onePass env rest).2.2)

/-- The while-loop of `load_everything` (snakemake_file.cc lines 74-96):
repeat full passes while the `unresolved` flag is set.  The C++ loop
carries no pass bound and no failure path for non-convergence, so the
model takes fuel; `none` means the flag was still set when fuel ran
out.  On convergence it returns the final sequence, the number of full
passes performed, and the total number of splices. -/
def loadLoop (env : String → List RuleBlock) :
    Nat → List RuleBlock → Option (List RuleBlock × Nat × Nat)
  | 0, _ => none
  | fuel + 1, seq =>
    if (onePass env seq).2.2 then
      match loadLoop env fuel (onePass env seq).1 with
      | none => none
      | some (r, p, s) => some (r, p + 1, s + (onePass env seq).2.1)
    else some ((onePass env seq).1, 1, (onePass env seq).2.1)

/-- No block of the sequence is an include directive. -/
def noInclude (seq : List RuleBlock) : Bool :=
  seq.all (fun b => !b.is_include_directive)

/-- A concrete opaque code block (nonempty code chunk, no rule name). -/
def opaqueBlockEx : RuleBlock :=
  RuleBlock.mk "" "" false "" [] ["x = 1"] 0 0

/-- A concrete include directive on file `a`. -/
def includeBlockA : RuleBlock :=
  RuleBlock.mk "" "" false "" [] ["include: \"a\""] 0 0

/-- An expansion environment in which file `a` includes itself: its
lines parse to an include directive on `a` followed by opaque code. -/
def cyclicEnv : String → List RuleBlock := fun _ => [includeBlockA, opaqueBlockEx]

/-- Seed sequence holding one include directive (on file `a`) and one
opaque block. -/
def cyclicSeq : List RuleBlock := [includeBlockA, opaqueBlockEx]

/-- An expansion environment in which every file is pure opaque code. -/
def convergingEnv : String → List RuleBlock := fun _ => [opaqueBlockEx]

/-- A parsed rule `merge` with one `shell` sub-block. -/
def mergeBlock1 : RuleBlock :=
  RuleBlock.mk "merge" "" false "" [("shell", "echo a")] [] 0 0

/-- A second parsed rule `merge` whose `shell` sub-block differs. -/
def mergeBlock2 : RuleBlock :=
  RuleBlock.mk "merge" "" false "" [("shell", "echo b")] [] 0 0

/-- First-match lookup of a named sub-block, mirroring lookup in the
sub-block mapping of a block. -/
def lookupBlock (nb : List (String × String)) (k : String) : Option String :=
  match nb with
  | [] => none
  | (k2, v) :: rest => if k2 = k then some v else lookupBlock rest k

/-- Modelled from the spec: `rule_block::offer_base_rule_contents`
(rule_block.cc absent from src/); spec 4.2 merge rule: "copies a key
only if absent in self, and the own content of self always wins. -/
def offerContents (b : RuleBlock) (k v : String) : RuleBlock :=
  if (lookupBlock b.named_blocks k).isSome then b
  else { b with named_blocks := b.named_blocks ++ [(k, v)] }

/-- Offer every base sub-block to a derived block in turn
(snakemake_file.cc lines 292-299). -/
def offerAll (b : RuleBlock) (base : List (String × String)) : RuleBlock :=
  base.foldl (fun acc kv => offerContents acc kv.1 kv.2) b

/-- The fatal message of snakemake_file.cc lines 284-287, naming the
derived rule and the missing base rule. -/
def missingBaseMsg (derived base : String) : String :=
  "derived rule \"" ++ derived ++ "\" requested base rule \"" ++ base ++
    "\", which could not be found in available snakefiles"

/-- Worker for `resolve_derived_rules` (snakemake_file.cc lines
266-301): walk the sequence from position `k`; a block with a base rule
name locates the first block carrying that rule name in the current
sequence (fatal if absent, naming both rules) and receives each of its
sub-blocks through the merge rule.  The fuel argument only drives the
structural recursion; `blocks.length` fuel always suffices because each
step advances the cursor by one and preserves the length. -/
def resolveAux : Nat → List RuleBlock → Nat → Except String (List RuleBlock)
  | 0, blocks, _ => .ok blocks
  | fuel + 1, blocks, k =>
    if h : k < blocks.length then
      if blocks[k].base_rule_name = "" then resolveAux fuel blocks (k + 1)
      else
        match blocks.find? (fun b2 => b2.rule_name == blocks[k].base_rule_name) with
        | none => .error (missingBaseMsg blocks[k].rule_name blocks[k].base_rule_name)
        | some bj =>
          resolveAux fuel (blocks.set k (offerAll blocks[k] bj.named_blocks)) (k + 1)
    else .ok blocks

/-- Embedding of `snakemake_file::resolve_derived_rules`
(snakemake_file.cc lines 255-302). -/
def resolve_derived_rules (blocks : List RuleBlock) : Except String (List RuleBlock) :=
  resolveAux blocks.length blocks 0

/-- The identity-relevant signature of a block: its rule name and base
rule name, which derived-rule resolution never modifies. -/
def nameSig (b : RuleBlock) : String × String := (b.rule_name, b.base_rule_name)

/-- Every nonempty base name among the signatures is carried by some
block as a rule name. -/
def SigOk (bl : List RuleBlock) : Prop :=
  ∀ p ∈ bl.map nameSig, p.2 ≠ "" → ∃ q ∈ bl.map nameSig, q.1 = p.2

/-- Single-level inheritance: a block whose rule name serves as some
(nonempty) base name of some block has itself no base (spec 4.3 and design
notes: only single-level derived rules are in scope). -/
def SingleLevel (bl : List RuleBlock) : Prop :=
  ∀ p ∈ bl.map nameSig, ∀ q ∈ bl.map nameSig, q.2 ≠ "" → p.1 = q.2 → p.2 = ""

/-- A concrete base rule `base0` providing `input` and `output`. -/
def baseBlockEx : RuleBlock :=
  RuleBlock.mk "base0" "" false "" [("input", "x"), ("output", "y")] [] 0 0

/-- A concrete derived rule `deriv` with base `base0` overriding
`output`. -/
def derivedBlockEx : RuleBlock :=
  RuleBlock.mk "deriv" "base0" false "" [("output", "z")] [] 0 0

/-- The expected merge result for `derivedBlockEx` against
`baseBlockEx`: its own `output` wins, the base `input` is appended. -/
def derivedBlockMerged : RuleBlock :=
  RuleBlock.mk "deriv" "base0" false "" [("output", "z"), ("input", "x")] [] 0 0

/-- One item of rendered output: a block printed verbatim, or a `pass`
stand-in at a given indentation. -/
inductive OutputItem where
  | verbatim (b : RuleBlock)
  | passLine (indent : Nat)
deriving DecidableEq, Repr

/-- The fatal message of snakemake_file.cc lines 355-357, naming the
rule that was not found. -/
def targetNotFoundMsg (rule_name : String) : String :=
  "unable to locate log requested rule in scanned snakefiles: \"" ++ rule_name ++ "\""

/-- Embedding of `snakemake_file::report_single_rule` (snakemake_file.cc
lines 329-358): emit blocks in sequence order; the requested rule and
blocks with no rule name print verbatim, every other rule prints a
`pass` stand-in indented by its global plus local indentation; if the
requested rule was never seen, the error naming it is raised (after the
output was already emitted, hence the pair). -/
def report_single_rule (blocks : List RuleBlock) (rule_name : String) :
    List OutputItem × Option String :=
  (blocks.map (fun b =>
      if b.rule_name = rule_name ∨ b.rule_name = "" then OutputItem.verbatim b
      else OutputItem.passLine (b.global_indentation + b.local_indentation)),
    if blocks.any (fun b => b.rule_name == rule_name) then none
    else some (targetNotFoundMsg rule_name))

/-- The single-quote character, written by code point to keep source
lines free of literal quote marks. -/
def tickChar : Char := Char.ofNat 39

/-- The single-quote character as a one-character string. -/
def tickStr : String := String.mk [tickChar]

/-- The fixed interpreter-output shape reporting a rule name absent from
the evaluated namespace. -/
def rulesMissingPat : String :=
  tickStr ++ "Rules" ++ tickStr ++ " object has no attribute " ++ tickStr

/-- The fixed interpreter-output shape reporting a checkpoint name
absent from the evaluated namespace. -/
def checkpointsMissingPat : String :=
  tickStr ++ "Checkpoints" ++ tickStr ++ " object has no attribute " ++ tickStr

/-- The generic interpreter error marker beginning an unexpected-failure
line. -/
def errorMarker : String := "Exception:"

/-- Strip `pat` off the head of `cs`, returning the remainder. -/
def stripPat : List Char → List Char → Option (List Char)
  | [], cs => some cs
  | _ :: _, [] => none
  | p :: ps, c :: cs => if p = c then stripPat ps cs else none

/-- Return the text following the first occurrence of `pat` in a line,
if any. -/
def findAfterPat (pat : List Char) : List Char → Option (List Char)
  | [] => none
  | c :: cs =>
    match stripPat pat (c :: cs) with
    | some rest => some rest
    | none => findAfterPat pat cs

/-- The quoted name: everything up to the closing quote. -/
def takeName : List Char → List Char
  | [] => []
  | c :: cs => if c = tickChar then [] else c :: takeName cs

/-- Classification of one captured interpreter-output line. -/
inductive LineClass where
  | missing (name : String)
  | fatal
  | ignore
deriving DecidableEq, Repr

/-- Modelled from the spec: per-line behavior of
`solved_rules::find_missing_rules` (solved_rules.cc absent from src/;
spec 4.5 and the pinning tests solved_rulesTest.cc lines 489-531): a
line containing either fixed missing-rule shape records the quoted name;
any other line beginning with the generic error marker is fatal; all
remaining lines are ignored. -/
def classifyLine (line : String) : LineClass :=
  match findAfterPat rulesMissingPat.data line.data with
  | some rest => LineClass.missing (String.mk (takeName rest))
  | none =>
    match findAfterPat checkpointsMissingPat.data line.data with
    | some rest => LineClass.missing (String.mk (takeName rest))
    | none =>
      if errorMarker.data.isPrefixOf line.data then LineClass.fatal
      else LineClass.ignore

/-- Scan the captured lines in order, recording missing names (each at
most once, map-style) and aborting at the first unexpected error line,
surfacing that line verbatim. -/
def findMissingAux (lines : List String) (acc : List String) :
    Except String (List String) :=
  match lines with
  | [] => .ok acc
  | l :: rest =>
    match classifyLine l with
    | LineClass.fatal => .error l
    | LineClass.missing n => findMissingAux rest (if n ∈ acc then acc else acc ++ [n])
    | LineClass.ignore => findMissingAux rest acc

/-- Modelled from the spec: `solved_rules::find_missing_rules`
(solved_rules.cc absent from src/). -/
def find_missing_rules (lines : List String) : Except String (List String) :=
  findMissingAux lines []

/-- Test line: an exception reporting rule `rulename1` missing. -/
def execLogLine1 : String :=
  "Exception: " ++ tickStr ++ "Rules" ++ tickStr ++ " object has no attribute " ++
    tickStr ++ "rulename1" ++ tickStr ++ " so that" ++ tickStr ++ "s a bummer\n"

/-- Test line: another shape reporting rule `rulename2` missing. -/
def execLogLine2 : String :=
  "Other exception: " ++ tickStr ++ "Rules" ++ tickStr ++ " object has no attribute " ++
    tickStr ++ "rulename2" ++ tickStr ++ " which makes me sad\n"

/-- Test line: a present attribute, matching neither shape nor marker. -/
def execLogLine3 : String :=
  tickStr ++ "Rules" ++ tickStr ++ " object has attribute " ++ tickStr ++ "rulename3" ++
    tickStr ++ ", so let" ++ tickStr ++ "s not just focus on the negative\n"

/-- Test line: checkpoint `check1` missing. -/
def execLogLine4 : String :=
  "Exception: " ++ tickStr ++ "Checkpoints" ++ tickStr ++ " object has no attribute " ++
    tickStr ++ "check1" ++ tickStr ++ ", which again stinks\n"

/-- Test line: checkpoint `check2` missing. -/
def execLogLine5 : String :=
  "Other exception: " ++ tickStr ++ "Checkpoints" ++ tickStr ++
    " object has no attribute " ++ tickStr ++ "check2" ++ tickStr ++ ", I give up\n"

/-- Test line: an unexpected interpreter error. -/
def execLogBadLine : String := "Exception: damnable portal of antediluvian evil\n"

/-- First-match lookup from output path to owning recipe index,
mirroring `_output_lookup` lookups (solved_rules.h lines 374-383). -/
def lookupOut (m : List (String × Nat)) (p : String) : Option Nat :=
  match m with
  | [] => none
  | (q, i) :: rest => if q = p then some i else lookupOut rest p

/-- Map insertion with overwrite: an existing binding for the key is
replaced in place, otherwise the binding is appended. -/
def setAssoc (m : List (String × Nat)) (k : String) (v : Nat) : List (String × Nat) :=
  if m.any (fun q => q.1 == k) then m.map (fun q => if q.1 = k then (k, v) else q)
  else m ++ [(k, v)]

/-- Modelled from the spec: one output-path insertion during
`solved_rules::load_file` (solved_rules.cc absent from src/; spec
sections 3 and 4.4): a path that already maps to a recipe is overwritten
(last-loaded wins) and the duplicate-output warning is recorded
(solved_rulesTest.cc lines 241-294 pin the warning and the overwrite). -/
def insertPath (st : List (String × Nat) × Bool) (i : Nat) (p : String) :
    List (String × Nat) × Bool :=
  (setAssoc st.1 p i, st.2 || st.1.any (fun q => q.1 == p))

/-- Insert every output path of every recipe in load order, starting at
recipe index `i`. -/
def buildAux : List Recipe → Nat → (List (String × Nat) × Bool) →
    List (String × Nat) × Bool
  | [], _, st => st
  | r :: rest, i, st =>
    buildAux rest (i + 1) (r.outputs.foldl (fun st2 p => insertPath st2 i p) st)

/-- Modelled from the spec: the output-lookup construction of
`solved_rules::load_file`, returning the lookup and whether the
duplicate-output warning fired. -/
def buildOutputLookup (recipes : List Recipe) : List (String × Nat) × Bool :=
  buildAux recipes 0 ([], false)

/-- The index of the last recipe whose outputs contain the path. -/
def lastIdx (p : String) : List Recipe → Option Nat
  | [] => none
  | r :: rest =>
    match lastIdx p rest with
    | some k => some (k + 1)
    | none => if p ∈ r.outputs then some 0 else none

/-- The first recipe of the toxic-output log: `rulename1` producing
`output.tsv`. -/
def toxicRecipe1 : Recipe :=
  Recipe.mk "rulename1" false false ["input1", "input2"] ["output.tsv"] "logfile"

/-- The second recipe of the toxic-output log: checkpoint
`checkpointname` also producing `output.tsv`. -/
def toxicRecipe2 : Recipe :=
  Recipe.mk "checkpointname" true false ["input3"] ["output.tsv"] ""

/-- The `solved_rules` state relevant to DAG resolution: the loaded
recipes and the output lookup; recipe identity (the `shared_ptr` keys of
the C++ maps) is modelled by recipe index. -/
structure SolvedRules where
  recipes : List Recipe
  output_lookup : List (String × Nat)

/-- The producing recipes of the inputs of a recipe, in input order: each
input path found in the output lookup contributes its producer. -/
def producers (sr : SolvedRules) (i : Nat) : List Nat :=
  (match sr.recipes[i]? with
    | some r => r.inputs
    | none => []).filterMap (fun p => lookupOut sr.output_lookup p)

/-- Every recipe index reachable through the output lookup. -/
def imageNodes (sr : SolvedRules) : List Nat :=
  (sr.output_lookup.map Prod.snd).dedup

/-- Modelled from the in-repository unit tests: the walk of
`solved_rules::add_dag_from_leaf` (solved_rules.cc is absent from src/;
solved_rulesTest.cc lines 532-583 pin its behavior): for each input
path of the current recipe, look up the producer in the output lookup;
a producer not yet in the accumulated map is added, and when the flag
requests the entire dependency dag the walk recurses on that producer.
The queried recipe itself is never inserted.  The fuel argument only
drives the structural recursion; `imageNodes`-many plus one always
suffices because every recursion step first inserts a fresh
lookup-image node. -/
def dagGo (sr : SolvedRules) : Nat → List Nat → Bool → Nat → List Nat
  | 0, acc, _, _ => acc
  | fuel + 1, acc, flag, i =>
    (producers sr i).foldl
      (fun acc2 j =>
        if j ∈ acc2 then acc2
        else if flag then dagGo sr fuel (j :: acc2) flag j else j :: acc2) acc

/-- Modelled from the in-repository unit tests:
`solved_rules::add_dag_from_leaf(rec, include_entire_dag, target)`. -/
def add_dag_from_leaf (sr : SolvedRules) (i : Nat) (include_entire_dag : Bool) :
    List Nat :=
  dagGo sr ((imageNodes sr).length + 1) [] include_entire_dag i

/-- How many lookup-image nodes are not yet visited. -/
def uncov (sr : SolvedRules) (vis : List Nat) : Nat :=
  ((imageNodes sr).filter (fun j => decide (j ∉ vis))).length

/-- Dependency reachability: the transitive closure of the
producer-of-an-input edge relation. -/
inductive Reach (sr : SolvedRules) : Nat → Nat → Prop
  | single {i j : Nat} : j ∈ producers sr i → Reach sr i j
  | head {i j k : Nat} : j ∈ producers sr i → Reach sr j k → Reach sr i k

/-- Dependency reachability through unvisited intermediate (and final)
nodes only. -/
inductive ReachAvoid (sr : SolvedRules) (vis : List Nat) : Nat → Nat → Prop
  | single {i j : Nat} : j ∈ producers sr i → j ∉ vis → ReachAvoid sr vis i j
  | head {i j k : Nat} : j ∈ producers sr i → j ∉ vis → ReachAvoid sr vis j k →
      ReachAvoid sr vis i k

/-- Scenario rule `a`, producing `x`. -/
def recipeA : Recipe := Recipe.mk "a" false false [] ["x"] ""

/-- Scenario checkpoint `b`, consuming `x` and producing `y`. -/
def recipeB : Recipe := Recipe.mk "b" true false ["x"] ["y"] ""

/-- The two-recipe scenario state. -/
def abSolved : SolvedRules := SolvedRules.mk [recipeA, recipeB] [("x", 0), ("y", 1)]

/-- First recipe of the three-recipe chain fixture of the unit tests. -/
def dagRec1 : Recipe :=
  Recipe.mk "" false false ["input1.tsv", "input2.tsv"] ["output1.tsv"] ""

/-- Second recipe of the chain, consuming the output of the first. -/
def dagRec2 : Recipe :=
  Recipe.mk "" false false ["input3.tsv", "output1.tsv"] ["output2.tsv"] ""

/-- Third recipe of the chain, consuming the output of the second. -/
def dagRec3 : Recipe :=
  Recipe.mk "" false false ["input4.tsv", "output2.tsv"] ["output3.tsv"] ""

/-- The three-recipe chain state of solved_rulesTest.cc lines 532-578. -/
def dagFixture : SolvedRules :=
  SolvedRules.mk [dagRec1, dagRec2, dagRec3]
    [("output1.tsv", 0), ("output2.tsv", 1), ("output3.tsv", 2)]

/-- Modelled from the spec: targeted rendering with a retain-set of
dependency names (`solved_rules::emit_snakefile` is absent from src/;
spec 4.3): blocks named the target or named in the retain set, and
unnamed blocks, print verbatim; every other rule block prints a `pass`
stand-in at its global plus local indentation; an absent target is
fatal, naming the rule. -/
def emitTargeted (blocks : List RuleBlock) (target : String) (retain : List String) :
    List OutputItem × Option String :=
  (blocks.map (fun b =>
      if b.rule_name = target ∨ b.rule_name ∈ retain ∨ b.rule_name = "" then
        OutputItem.verbatim b
      else OutputItem.passLine (b.global_indentation + b.local_indentation)),
    if blocks.any (fun b => b.rule_name == target) then none
    else some (targetNotFoundMsg target))

/-- Divergence scan for one rule name (snakemake_file.cc lines 156-172):
walk the occurrences after the first; at a block differing from the
first occurrence, stop and report addition unless the name is already in
the exclusion list, in which case keep scanning without ever adding. -/
def scanDupes (n : String) (b0 : RuleBlock) : List RuleBlock → List String → Bool
  | [], _ => false
  | b :: rest, ex =>
    if rule_block_eq b b0 then scanDupes n b0 rest ex
    else if n ∈ ex then scanDupes n b0 rest ex
    else true

/-- The aggregated occurrence list for a rule name: blocks with an empty
code chunk (parsed rules) carrying that name, in sequence order
(snakemake_file.cc lines 139-150). -/
def ruleOccurrences (blocks : List RuleBlock) (n : String) : List RuleBlock :=
  blocks.filter (fun b => b.code_chunk.isEmpty && b.rule_name == n)

/-- The rule names of all parsed-rule blocks, in sequence order. -/
def ruleNames (blocks : List RuleBlock) : List String :=
  (blocks.filter (fun b => b.code_chunk.isEmpty)).map (fun b => b.rule_name)

/-- Insert a string into a sorted list of strings. -/
def insertSorted (s : String) : List String → List String
  | [] => [s]
  | t :: rest => if s ≤ t then s :: t :: rest else t :: insertSorted s rest

/-- Insertion sort on strings, mirroring `std::map` key order. -/
def sortKeys : List String → List String
  | [] => []
  | s :: rest => insertSorted s (sortKeys rest)

/-- The distinct aggregated rule names in `std::map` iteration order
(ascending). -/
def aggregatedKeys (blocks : List RuleBlock) : List String :=
  sortKeys (ruleNames blocks).dedup

/-- Per-key divergence handling (snakemake_file.cc lines 152-173): on a
divergent duplicate not already excluded, append the name to the
exclusion list and to the warned divergent-duplicate list. -/
def processKey (blocks : List RuleBlock) (st : List String × List String)
    (n : String) : List String × List String :=
  match ruleOccurrences blocks n with
  | [] => st
  | b0 :: rest =>
    if scanDupes n b0 rest st.1 then (st.1 ++ [n], st.2 ++ [n]) else st

/-- Embedding of `snakemake_file::detect_known_issues` (snakemake_file.cc
lines 106-229) restricted to its duplicate-rule handling: returns the
updated exclusion list and the list of divergent duplicate names
reported in the warning block (console output lines 192-210). -/
def detect_known_issues (blocks : List RuleBlock) (exclude_rules : List String) :
    List String × List String :=
  (aggregatedKeys blocks).foldl (processKey blocks) (exclude_rules, [])

end SnakemakeUT

namespace SnakemakeUT

/-- C9: `recipe::clear` empties the rule name, log, inputs and outputs,
but leaves the checkpoint flag and the checkpoint-affected flag
unchanged: `is_checkpoint` and `is_checkpoint_update` return the same
values immediately before and after the call. -/
theorem recipe_clear_frame (r : Recipe) :
    (r.clear).rule_name = "" ∧ (r.clear).log = "" ∧
    (r.clear).inputs = [] ∧ (r.clear).outputs = [] ∧
    (r.clear).is_checkpoint = r.is_checkpoint ∧
    (r.clear).is_checkpoint_update = r.is_checkpoint_update := by
  refine ⟨rfl, rfl, rfl, rfl, rfl, rfl⟩

/-- A line passes the include-line test exactly when it decomposes as
optional leading spaces, the keyword `include:`, and a remainder with at
least one non-space character. -/
theorem isIncludeLineChars_iff (cs : List Char) :
    isIncludeLineChars cs = true ↔
      ∃ n rest, cs = List.replicate n ' ' ++ includeKeyword ++ rest ∧
        rest.any (fun c => c != ' ') = true := by
  induction cs with
  | nil =>
    constructor
    · intro h
      simp [isIncludeLineChars, includeKeyword, List.isPrefixOf] at h
    · rintro ⟨n, rest, h, -⟩
      have hlen := congrArg List.length h
      simp [includeKeyword] at hlen
      omega
  | cons c cs ih =>
    by_cases hc : c = ' '
    · subst hc
      have hdrop : ((' ' :: cs).dropWhile (fun x => x == ' '))
          = cs.dropWhile (fun x => x == ' ') := by
        simp [List.dropWhile]
      constructor
      · intro h
        have h' : isIncludeLineChars cs = true := by
          unfold isIncludeLineChars at h ⊢
          rwa [hdrop] at h
        obtain ⟨n, rest, hdec, hr⟩ := ih.mp h'
        exact ⟨n + 1, rest, by simp [List.replicate_succ, hdec], hr⟩
      · rintro ⟨n, rest, hdec, hr⟩
        cases n with
        | zero =>
          exfalso
          rw [List.replicate] at hdec
          rw [List.nil_append] at hdec
          have : (' ' : Char) = 'i' := by
            have := congrArg (fun l => l.headD 'z') hdec
            simp only [includeKeyword] at this
            exact this
          exact absurd this (by decide)
        | succ n =>
          rw [List.replicate_succ, List.cons_append, List.cons_append] at hdec
          have h' : cs = List.replicate n ' ' ++ includeKeyword ++ rest :=
            (List.cons.injEq _ _ _ _ ▸ hdec).2
          have := ih.mpr ⟨n, rest, h', hr⟩
          unfold isIncludeLineChars at this ⊢
          rwa [hdrop]
    · have hcb : (c == ' ') = false := by
        simpa using hc
      have hdrop : ((c :: cs).dropWhile (fun x => x == ' ')) = c :: cs := by
        simp [List.dropWhile, hcb]
      constructor
      · intro h
        unfold isIncludeLineChars at h
        rw [hdrop] at h
        rw [Bool.and_eq_true] at h
        obtain ⟨hpre, hany⟩ := h
        obtain ⟨rest, hrest⟩ := ( List.isPrefixOf_iff_prefix).mp hpre
        refine ⟨0, rest, ?_, ?_⟩
        · simp [hrest.symm]
        · rw [← hrest, List.drop_left] at hany
          exact hany
      · rintro ⟨n, rest, hdec, hr⟩
        cases n with
        | succ n =>
          exfalso
          rw [List.replicate_succ, List.cons_append, List.cons_append] at hdec
          exact hc (List.cons.injEq _ _ _ _ ▸ hdec).1
        | zero =>
          rw [List.replicate, List.nil_append] at hdec
          unfold isIncludeLineChars
          rw [hdrop, hdec, Bool.and_eq_true]
          refine ⟨?_, ?_⟩
          · exact ( List.isPrefixOf_iff_prefix).mpr ⟨rest, rfl⟩
          · rw [List.drop_left]
            exact hr

/-- C10: `rule_block::contains_include_directive` holds only for blocks
whose code chunk is exactly one line of shape optional leading
whitespace, the keyword `include:`, and a following expression
(trailing whitespace allowed, bareword expressions qualify); a line
lacking the colon or with a prefixed keyword (`sinclude:`) does not
qualify, and a code chunk of two or more lines is never an include
directive even if every line looks like one. -/
theorem claim_C10_contains_include_directive :
    (∀ b : RuleBlock, 2 ≤ b.code_chunk.length →
        b.contains_include_directive = false) ∧
    (∀ b : RuleBlock, ∀ l : String, b.code_chunk = [l] →
        (b.contains_include_directive = true ↔
          ∃ n rest, l.data = List.replicate n ' ' ++ includeKeyword ++ rest ∧
            rest.any (fun c => c != ' ') = true)) ∧
    contains_include_chunk ["include: stuff"] = true ∧
    contains_include_chunk ["include: \"stuff\""] = true ∧
    contains_include_chunk ["   include: thing"] = true ∧
    contains_include_chunk ["include: \"thing\"   "] = true ∧
    contains_include_chunk ["include thing"] = false ∧
    contains_include_chunk ["sinclude: thing"] = false ∧
    contains_include_chunk ["include: thing", "include: otherthing"] = false := by
  refine ⟨?_, ?_, by rfl, by rfl, by rfl, by rfl, by rfl, by rfl, by rfl⟩
  · intro b h
    show contains_include_chunk b.code_chunk = false
    rcases hcc : b.code_chunk with _ | ⟨a, tl⟩
    · rw [hcc] at h; simp at h
    · rcases tl with _ | ⟨a2, tl2⟩
      · rw [hcc] at h; simp at h
      · rfl
  · intro b l hl
    show contains_include_chunk b.code_chunk = true ↔ _
    rw [hl]
    exact isIncludeLineChars_iff l.data

/-- Witness for C10 at concrete inputs. -/
theorem claim_C10_contains_include_directive_witness :
    (RuleBlock.mk "" "" false "" [] ["   include: thing"] 0 0).contains_include_directive
      = true ∧
    (RuleBlock.mk "" "" false "" [] ["include: a", "include: b"] 0 0).contains_include_directive
      = false :=
  ⟨(claim_C10_contains_include_directive.2.1 _ _ rfl).mpr
      ⟨3, (" thing").data, by decide, by decide⟩,
    claim_C10_contains_include_directive.1 _ (by decide)⟩

/-- A pass over an include-free sequence changes nothing. -/
theorem onePass_of_noInclude (env : String → List RuleBlock) :
    ∀ seq : List RuleBlock, noInclude seq = true → onePass env seq = (seq, 0, false) := by
  intro seq
  induction seq with
  | nil => intro _; rfl
  | cons b rest ih =>
    intro h
    rw [noInclude, List.all_cons, Bool.and_eq_true] at h
    obtain ⟨hb, hrest⟩ := h
    have hb' : b.is_include_directive = false := by
      cases hbv : b.is_include_directive
      · rfl
      · rw [hbv] at hb; simp at hb
    unfold onePass
    rw [if_neg (by simp [hb'])]
    rw [ih hrest]

/-- A pass that reports the `unresolved` flag clear made no splice,
returned its input unchanged, and certifies the input include-free. -/
theorem onePass_flag_false (env : String → List RuleBlock) :
    ∀ seq s' n, onePass env seq = (s', n, false) →
      s' = seq ∧ n = 0 ∧ noInclude seq = true := by
  intro seq
  induction seq with
  | nil =>
    intro s' n h
    unfold onePass at h
    rw [Prod.mk.injEq, Prod.mk.injEq] at h
    exact ⟨h.1.symm, h.2.1.symm, rfl⟩
  | cons b rest ih =>
    intro s' n h
    unfold onePass at h
    by_cases hb : b.is_include_directive = true
    · rw [if_pos hb] at h
      cases rest with
      | nil => simp at h
      | cons r rs => simp at h
    · rw [if_neg hb] at h
      rw [Prod.mk.injEq, Prod.mk.injEq] at h
      obtain ⟨h1, h2, h3⟩ := h
      have heq : onePass env rest = ((onePass env rest).1, (onePass env rest).2.1, false) := by
        rw [← h3]
      obtain ⟨hs, hn, hni⟩ := ih _ _ heq
      refine ⟨by rw [← h1, hs], hn ▸ h2.symm, ?_⟩
      rw [noInclude, List.all_cons, Bool.and_eq_true]
      exact ⟨by simp [hb], hni⟩

/-- A pass that reports the `unresolved` flag set made at least one splice. -/
theorem onePass_flag_true (env : String → List RuleBlock) :
    ∀ seq s' n, onePass env seq = (s', n, true) → 1 ≤ n := by
  intro seq
  induction seq with
  | nil =>
    intro s' n h
    unfold onePass at h
    simp at h
  | cons b rest ih =>
    intro s' n h
    unfold onePass at h
    by_cases hb : b.is_include_directive = true
    · rw [if_pos hb] at h
      cases rest with
      | nil =>
        rw [Prod.mk.injEq, Prod.mk.injEq] at h
        omega
      | cons r rs =>
        rw [Prod.mk.injEq, Prod.mk.injEq] at h
        omega
    · rw [if_neg hb] at h
      rw [Prod.mk.injEq, Prod.mk.injEq] at h
      obtain ⟨h1, h2, h3⟩ := h
      have heq : onePass env rest = ((onePass env rest).1, (onePass env rest).2.1, true) := by
        rw [← h3]
      have := ih _ _ heq
      omega

/-- C8: the fixpoint include-expansion loop is idempotent: a pass over a
block sequence with no include-directive blocks makes zero splices and
zero erasures and returns the sequence unchanged with the `unresolved`
flag clear, and after any converged run of the loop another pass makes
no further structural modification. -/
theorem claim_C8_fixpoint_idempotent :
    (∀ (env : String → List RuleBlock) (seq : List RuleBlock),
        noInclude seq = true → onePass env seq = (seq, 0, false)) ∧
    (∀ (env : String → List RuleBlock) (fuel : Nat) (seq r : List RuleBlock) (p s : Nat),
        loadLoop env fuel seq = some (r, p, s) → onePass env r = (r, 0, false)) := by
  refine ⟨onePass_of_noInclude, ?_⟩
  intro env fuel
  induction fuel with
  | zero => intro seq r p s h; exact absurd h (by unfold loadLoop; simp)
  | succ fuel ih =>
    intro seq r p s h
    unfold loadLoop at h
    by_cases hflag : (onePass env seq).2.2 = true
    · rw [if_pos hflag] at h
      cases hrec : loadLoop env fuel (onePass env seq).1 with
      | none => rw [hrec] at h; simp at h
      | some v =>
        obtain ⟨r', p', s'⟩ := v
        rw [hrec] at h
        rw [Option.some.injEq, Prod.mk.injEq, Prod.mk.injEq] at h
        exact h.1 ▸ ih _ _ _ _ hrec
    · rw [if_neg hflag] at h
      rw [Option.some.injEq, Prod.mk.injEq, Prod.mk.injEq] at h
      obtain ⟨h1, -, -⟩ := h
      have hff : onePass env seq = ((onePass env seq).1, (onePass env seq).2.1, false) := by
        have : (onePass env seq).2.2 = false := by
          cases hv : (onePass env seq).2.2
          · rfl
          · exact absurd hv hflag
        rw [← this]
      obtain ⟨hs, -, hni⟩ := onePass_flag_false env seq _ _ hff
      rw [← h1, hs]
      exact onePass_of_noInclude env seq hni

/-- Witness for C8 at a concrete include-free sequence and a concrete
converged run. -/
theorem claim_C8_fixpoint_idempotent_witness :
    onePass convergingEnv [opaqueBlockEx] = ([opaqueBlockEx], 0, false) ∧
    onePass convergingEnv [opaqueBlockEx, opaqueBlockEx]
      = ([opaqueBlockEx, opaqueBlockEx], 0, false) :=
  ⟨claim_C8_fixpoint_idempotent.1 convergingEnv [opaqueBlockEx] (by decide),
    claim_C8_fixpoint_idempotent.2 convergingEnv 3 [includeBlockA, opaqueBlockEx]
      [opaqueBlockEx, opaqueBlockEx] 2 1 (by rfl)⟩

/-- Counterexample to C2 as stated: with a self-including file, the
sequence holds one include directive, yet after five full passes (more
than one-plus-one) the loop has not converged; the loop body has no
failure path at all, so non-convergence loops indefinitely instead of
failing loudly. -/
theorem claim_C2_counterexample :
    (cyclicSeq.filter (fun b => b.is_include_directive)).length = 1 ∧
    loadLoop cyclicEnv 5 cyclicSeq = none := by
  constructor
  · rfl
  · rfl

/-- C2 (amended): every non-final pass of the rescan loop performs at
least one splice, so whenever the loop converges it has performed at
most total-splices-plus-one full passes, and the converged sequence is
include-free; on non-convergence the loop runs on without any error. -/
theorem claim_C2_fixpoint_bound
    (env : String → List RuleBlock) (fuel : Nat) (seq r : List RuleBlock) (p s : Nat)
    (h : loadLoop env fuel seq = some (r, p, s)) :
    p ≤ s + 1 ∧ noInclude r = true := by
  induction fuel generalizing seq r p s with
  | zero => exact absurd h (by unfold loadLoop; simp)
  | succ fuel ih =>
    unfold loadLoop at h
    by_cases hflag : (onePass env seq).2.2 = true
    · rw [if_pos hflag] at h
      cases hrec : loadLoop env fuel (onePass env seq).1 with
      | none => rw [hrec] at h; simp at h
      | some v =>
        obtain ⟨r', p', s'⟩ := v
        rw [hrec] at h
        rw [Option.some.injEq, Prod.mk.injEq, Prod.mk.injEq] at h
        obtain ⟨h1, h2, h3⟩ := h
        obtain ⟨hb, hni⟩ := ih _ _ _ _ hrec
        have hsp : 1 ≤ (onePass env seq).2.1 :=
          onePass_flag_true env seq _ _ (by rw [← hflag])
        exact ⟨by omega, h1 ▸ hni⟩
    · rw [if_neg hflag] at h
      rw [Option.some.injEq, Prod.mk.injEq, Prod.mk.injEq] at h
      obtain ⟨h1, h2, h3⟩ := h
      have hff : onePass env seq = ((onePass env seq).1, (onePass env seq).2.1, false) := by
        have hv : (onePass env seq).2.2 = false := by
          cases hv : (onePass env seq).2.2
          · rfl
          · exact absurd hv hflag
        rw [← hv]
      obtain ⟨hs, -, hni⟩ := onePass_flag_false env seq _ _ hff
      exact ⟨by omega, by rw [← h1, hs]; exact hni⟩

/-- Witness for the amended C2 at a concrete converging run. -/
theorem claim_C2_fixpoint_bound_witness :
    2 ≤ 1 + 1 ∧ noInclude [opaqueBlockEx, opaqueBlockEx] = true :=
  claim_C2_fixpoint_bound convergingEnv 3 [includeBlockA, opaqueBlockEx]
    [opaqueBlockEx, opaqueBlockEx] 2 1 (by rfl)

/-- Spec-equality of rule blocks unfolded to field equalities. -/
theorem rule_block_eq_iff (a b : RuleBlock) :
    rule_block_eq a b = true ↔
      a.rule_name = b.rule_name ∧ a.base_rule_name = b.base_rule_name ∧
      a.rule_is_checkpoint = b.rule_is_checkpoint ∧ a.docstring = b.docstring ∧
      a.code_chunk = b.code_chunk ∧ a.named_blocks = b.named_blocks := by
  simp [rule_block_eq, Bool.and_eq_true, and_assoc]

/-- Spec-equality is reflexive. -/
theorem rule_block_eq_refl (a : RuleBlock) : rule_block_eq a a = true :=
  (rule_block_eq_iff a a).mpr ⟨rfl, rfl, rfl, rfl, rfl, rfl⟩

/-- Spec-equality is symmetric. -/
theorem rule_block_eq_symm (a b : RuleBlock) (h : rule_block_eq a b = true) :
    rule_block_eq b a = true := by
  obtain ⟨h1, h2, h3, h4, h5, h6⟩ := (rule_block_eq_iff a b).mp h
  exact (rule_block_eq_iff b a).mpr ⟨h1.symm, h2.symm, h3.symm, h4.symm, h5.symm, h6.symm⟩

/-- Spec-equality is transitive. -/
theorem rule_block_eq_trans (a b c : RuleBlock) (hab : rule_block_eq a b = true)
    (hbc : rule_block_eq b c = true) : rule_block_eq a c = true := by
  obtain ⟨h1, h2, h3, h4, h5, h6⟩ := (rule_block_eq_iff a b).mp hab
  obtain ⟨g1, g2, g3, g4, g5, g6⟩ := (rule_block_eq_iff b c).mp hbc
  exact (rule_block_eq_iff a c).mpr
    ⟨h1.trans g1, h2.trans g2, h3.trans g3, h4.trans g4, h5.trans g5, h6.trans g6⟩

/-- The divergence scan fires exactly when some later occurrence differs
from the first and the name is not already excluded. -/
theorem scanDupes_iff (n : String) (b0 : RuleBlock) :
    ∀ (l : List RuleBlock) (ex : List String),
      scanDupes n b0 l ex = true ↔
        (∃ b ∈ l, rule_block_eq b b0 = false) ∧ n ∉ ex := by
  intro l
  induction l with
  | nil => intro ex; simp [scanDupes]
  | cons b rest ih =>
    intro ex
    unfold scanDupes
    by_cases hb : rule_block_eq b b0 = true
    · rw [if_pos hb, ih]
      constructor
      · rintro ⟨⟨w, hw, hwne⟩, hnex⟩
        exact ⟨⟨w, List.mem_cons_of_mem _ hw, hwne⟩, hnex⟩
      · rintro ⟨⟨w, hw, hwne⟩, hnex⟩
        rcases List.mem_cons.mp hw with h1 | h1
        · rw [h1, hb] at hwne
          exact Bool.noConfusion hwne
        · exact ⟨⟨w, h1, hwne⟩, hnex⟩
    · have hbf : rule_block_eq b b0 = false := by
        cases hv : rule_block_eq b b0
        · rfl
        · exact absurd hv hb
      rw [if_neg hb]
      by_cases hex : n ∈ ex
      · rw [if_pos hex, ih]
        constructor
        · rintro ⟨-, hnex⟩; exact absurd hex hnex
        · rintro ⟨-, hnex⟩; exact absurd hex hnex
      · rw [if_neg hex]
        constructor
        · intro _
          exact ⟨⟨b, List.mem_cons_self b rest, hbf⟩, hex⟩
        · intro _
          rfl

/-- The divergence scan reads the exclusion list only through membership
of the scanned name. -/
theorem scanDupes_congr (n : String) (b0 : RuleBlock) (l : List RuleBlock)
    (ex ex' : List String) (h : n ∈ ex ↔ n ∈ ex') :
    scanDupes n b0 l ex = scanDupes n b0 l ex' := by
  by_cases h1 : scanDupes n b0 l ex = true
  · obtain ⟨hw, hnex⟩ := (scanDupes_iff n b0 l ex).mp h1
    rw [h1, ((scanDupes_iff n b0 l ex').mpr ⟨hw, fun hc => hnex (h.mpr hc)⟩)]
  · have h2 : scanDupes n b0 l ex' ≠ true := by
      intro hc
      obtain ⟨hw, hnex⟩ := (scanDupes_iff n b0 l ex').mp hc
      exact h1 ((scanDupes_iff n b0 l ex).mpr ⟨hw, fun hm => hnex (h.mp hm)⟩)
    have h1' : scanDupes n b0 l ex = false := by
      cases hv : scanDupes n b0 l ex
      · rfl
      · exact absurd hv h1
    have h2' : scanDupes n b0 l ex' = false := by
      cases hv : scanDupes n b0 l ex'
      · rfl
      · exact absurd hv h2
    rw [h1', h2']

/-- Membership through sorted insertion. -/
theorem mem_insertSorted (s x : String) :
    ∀ l, x ∈ insertSorted s l ↔ x = s ∨ x ∈ l := by
  intro l
  induction l with
  | nil => simp [insertSorted]
  | cons t rest ih =>
    unfold insertSorted
    by_cases h : s ≤ t
    · rw [if_pos h]
      simp [List.mem_cons]
    · rw [if_neg h]
      simp only [List.mem_cons, ih]
      tauto

/-- Sorted insertion of a fresh element preserves `Nodup`. -/
theorem nodup_insertSorted (s : String) :
    ∀ l, s ∉ l → l.Nodup → (insertSorted s l).Nodup := by
  intro l
  induction l with
  | nil => intro _ _; simp [insertSorted]
  | cons t rest ih =>
    intro hs hnd
    unfold insertSorted
    rw [List.nodup_cons] at hnd
    by_cases h : s ≤ t
    · rw [if_pos h, List.nodup_cons, List.nodup_cons]
      exact ⟨hs, hnd.1, hnd.2⟩
    · rw [if_neg h, List.nodup_cons]
      refine ⟨?_, ih (fun hmem => hs (List.mem_cons_of_mem _ hmem)) hnd.2⟩
      intro hmem
      rcases (mem_insertSorted s t rest).mp hmem with h1 | h1
      · exact hs (h1 ▸ List.mem_cons_self t rest)
      · exact hnd.1 h1

/-- Sorting preserves membership. -/
theorem mem_sortKeys (x : String) : ∀ l, x ∈ sortKeys l ↔ x ∈ l := by
  intro l
  induction l with
  | nil => simp [sortKeys]
  | cons s rest ih =>
    unfold sortKeys
    rw [mem_insertSorted, ih, List.mem_cons]

/-- Sorting preserves `Nodup`. -/
theorem nodup_sortKeys : ∀ l, l.Nodup → (sortKeys l).Nodup := by
  intro l
  induction l with
  | nil => intro _; simp [sortKeys]
  | cons s rest ih =>
    intro h
    rw [List.nodup_cons] at h
    unfold sortKeys
    exact nodup_insertSorted s _ (fun hm => h.1 ((mem_sortKeys s rest).mp hm)) (ih h.2)

/-- Processing some other rule name never touches the counts or the
exclusion membership of `n`. -/
theorem processKey_preserve (blocks : List RuleBlock) (st : List String × List String)
    (m n : String) (hmn : m ≠ n) :
    List.count n (processKey blocks st m).1 = List.count n st.1 ∧
    List.count n (processKey blocks st m).2 = List.count n st.2 ∧
    (n ∈ (processKey blocks st m).1 ↔ n ∈ st.1) := by
  have hcnt : List.count n [m] = 0 :=
    List.count_eq_zero.mpr (fun h => hmn (List.mem_singleton.mp h).symm)
  unfold processKey
  split
  · exact ⟨rfl, rfl, Iff.rfl⟩
  · split
    · refine ⟨?_, ?_, ?_⟩
      · rw [List.count_append, hcnt, Nat.add_zero]
      · rw [List.count_append, hcnt, Nat.add_zero]
      · rw [List.mem_append]
        constructor
        · rintro (h | h)
          · exact h
          · exact absurd (List.mem_singleton.mp h).symm hmn
        · exact Or.inl
    · exact ⟨rfl, rfl, Iff.rfl⟩

/-- Folding over keys avoiding `n` never touches the counts of `n` or its
exclusion membership. -/
theorem fold_preserve (blocks : List RuleBlock) :
    ∀ (K : List String) (st : List String × List String) (n : String), n ∉ K →
      List.count n ((K.foldl (processKey blocks) st).1) = List.count n st.1 ∧
      List.count n ((K.foldl (processKey blocks) st).2) = List.count n st.2 ∧
      (n ∈ (K.foldl (processKey blocks) st).1 ↔ n ∈ st.1) := by
  intro K
  induction K with
  | nil => intro st n _; exact ⟨rfl, rfl, Iff.rfl⟩
  | cons m K ih =>
    intro st n hn
    have hmn : m ≠ n := fun he => hn (he ▸ List.mem_cons_self m K)
    rw [List.foldl_cons]
    obtain ⟨h1, h2, h3⟩ := ih (processKey blocks st m) n (fun h => hn (List.mem_cons_of_mem _ h))
    obtain ⟨p1, p2, p3⟩ := processKey_preserve blocks st m n hmn
    exact ⟨h1.trans p1, h2.trans p2, h3.trans p3⟩

/-- A rule name with at least one occurrence appears among the
aggregated keys. -/
theorem mem_aggregatedKeys_of_occ (blocks : List RuleBlock) (n : String)
    (h : ruleOccurrences blocks n ≠ []) : n ∈ aggregatedKeys blocks := by
  obtain ⟨b0, hb0⟩ := List.exists_mem_of_ne_nil _ h
  rw [ruleOccurrences, List.mem_filter, Bool.and_eq_true] at hb0
  obtain ⟨hmem, hempty, hname⟩ := hb0
  rw [aggregatedKeys, mem_sortKeys, List.mem_dedup, ruleNames, List.mem_map]
  exact ⟨b0, List.mem_filter.mpr ⟨hmem, hempty⟩, (beq_iff_eq.mp hname)⟩

/-- The aggregated keys are duplicate-free. -/
theorem nodup_aggregatedKeys (blocks : List RuleBlock) :
    (aggregatedKeys blocks).Nodup :=
  nodup_sortKeys _ (List.nodup_dedup _)

/-- Core bookkeeping of `detect_known_issues` for a rule name with at
least one occurrence: the name is appended to the exclusion list and to
the warning list exactly when the divergence scan (against the original
exclusion list) fires, and at most once. -/
theorem detect_characterize (blocks : List RuleBlock) (exclude : List String)
    (n : String) (b0 : RuleBlock) (rest : List RuleBlock)
    (hocc : ruleOccurrences blocks n = b0 :: rest) :
    List.count n (detect_known_issues blocks exclude).1 =
      List.count n exclude + (if scanDupes n b0 rest exclude then 1 else 0) ∧
    List.count n (detect_known_issues blocks exclude).2 =
      (if scanDupes n b0 rest exclude then 1 else 0) := by
  have hkey : n ∈ aggregatedKeys blocks :=
    mem_aggregatedKeys_of_occ blocks n (by rw [hocc]; exact List.cons_ne_nil b0 rest)
  obtain ⟨K₁, K₂, hK⟩ := List.append_of_mem hkey
  have hnodup := nodup_aggregatedKeys blocks
  rw [hK] at hnodup
  have hn1 : n ∉ K₁ := by
    intro hc
    rcases List.nodup_append.mp hnodup with ⟨-, -, hdis⟩
    exact hdis hc (List.mem_cons_self n K₂)
  have hn2 : n ∉ K₂ := by
    rcases List.nodup_append.mp hnodup with ⟨-, hnd2, -⟩
    rw [List.nodup_cons] at hnd2
    exact hnd2.1
  unfold detect_known_issues
  rw [hK, List.foldl_append, List.foldl_cons]
  obtain ⟨s1, s2, s3⟩ := fold_preserve blocks K₁ (exclude, []) n hn1
  have hscan : scanDupes n b0 rest ((K₁.foldl (processKey blocks) (exclude, [])).1)
      = scanDupes n b0 rest exclude := scanDupes_congr n b0 rest _ _ s3
  have hstep :
      processKey blocks (K₁.foldl (processKey blocks) (exclude, [])) n =
        (if scanDupes n b0 rest exclude then
          ((K₁.foldl (processKey blocks) (exclude, [])).1 ++ [n],
            (K₁.foldl (processKey blocks) (exclude, [])).2 ++ [n])
        else K₁.foldl (processKey blocks) (exclude, [])) := by
    simp only [processKey, hocc]
    rw [hscan]
  rw [hstep]
  by_cases hcond : scanDupes n b0 rest exclude = true
  · rw [if_pos hcond]
    obtain ⟨f1, f2, -⟩ := fold_preserve blocks K₂
      ((K₁.foldl (processKey blocks) (exclude, [])).1 ++ [n],
        (K₁.foldl (processKey blocks) (exclude, [])).2 ++ [n]) n hn2
    constructor
    · rw [f1, List.count_append, s1, if_pos hcond]
      simp
    · rw [f2, List.count_append, s2, if_pos hcond]
      simp
  · rw [if_neg hcond]
    obtain ⟨f1, f2, -⟩ := fold_preserve blocks K₂
      (K₁.foldl (processKey blocks) (exclude, [])) n hn2
    constructor
    · rw [f1, s1, if_neg hcond]
      simp
    · rw [f2, s2, if_neg hcond]
      simp

/-- With the first occurrence at the head, some pair of occurrences
diverges exactly when some later occurrence diverges from the first. -/
theorem divergent_iff (b0 : RuleBlock) (rest : List RuleBlock) :
    (∃ b1 ∈ b0 :: rest, ∃ b2 ∈ b0 :: rest, rule_block_eq b1 b2 = false) ↔
      ∃ b ∈ rest, rule_block_eq b b0 = false := by
  constructor
  · rintro ⟨b1, hb1, b2, hb2, hne⟩
    by_cases h1 : rule_block_eq b1 b0 = true
    · by_cases h2 : rule_block_eq b2 b0 = true
      · exfalso
        have ht : rule_block_eq b1 b2 = true :=
          rule_block_eq_trans _ _ _ h1 (rule_block_eq_symm _ _ h2)
        rw [ht] at hne
        exact Bool.noConfusion hne
      · have h2f : rule_block_eq b2 b0 = false := by
          cases hv : rule_block_eq b2 b0
          · rfl
          · exact absurd hv h2
        have hb2r : b2 ∈ rest := by
          rcases List.mem_cons.mp hb2 with h | h
          · exfalso
            rw [h, rule_block_eq_refl b0] at h2f
            exact Bool.noConfusion h2f
          · exact h
        exact ⟨b2, hb2r, h2f⟩
    · have h1f : rule_block_eq b1 b0 = false := by
        cases hv : rule_block_eq b1 b0
        · rfl
        · exact absurd hv h1
      have hb1r : b1 ∈ rest := by
        rcases List.mem_cons.mp hb1 with h | h
        · exfalso
          rw [h, rule_block_eq_refl b0] at h1f
          exact Bool.noConfusion h1f
        · exact h
      exact ⟨b1, hb1r, h1f⟩
  · rintro ⟨b, hb, hne⟩
    exact ⟨b, List.mem_cons_of_mem _ hb, b0, List.mem_cons_self b0 rest, hne⟩

/-- Structurally equal occurrences never fire the divergence scan. -/
theorem scan_false_of_all_eq (n : String) (b0 : RuleBlock) (rest : List RuleBlock)
    (ex : List String)
    (hall : ∀ b1 ∈ b0 :: rest, ∀ b2 ∈ b0 :: rest, rule_block_eq b1 b2 = true) :
    scanDupes n b0 rest ex = false := by
  cases hv : scanDupes n b0 rest ex
  · rfl
  · exfalso
    obtain ⟨⟨b, hb, hbf⟩, -⟩ := (scanDupes_iff n b0 rest ex).mp hv
    rw [hall b (List.mem_cons_of_mem _ hb) b0 (List.mem_cons_self b0 rest)] at hbf
    exact Bool.noConfusion hbf

/-- C3: after loading, for every rule name carried by more than one
parsed rule block: if all occurrences are structurally equal, the name
is not added to the exclusion list and no divergence warning names it;
if some pair of occurrences differs, the name is appended to the
exclusion list exactly once and reported in the divergence warning,
except that a name the caller already excluded is neither re-added nor
re-reported. -/
theorem claim_C3_duplicate_rule_handling (blocks : List RuleBlock)
    (exclude : List String) (n : String)
    (hocc : 2 ≤ (ruleOccurrences blocks n).length) :
    ((∀ b1 ∈ ruleOccurrences blocks n, ∀ b2 ∈ ruleOccurrences blocks n,
        rule_block_eq b1 b2 = true) →
      List.count n (detect_known_issues blocks exclude).1 = List.count n exclude ∧
      n ∉ (detect_known_issues blocks exclude).2) ∧
    ((∃ b1 ∈ ruleOccurrences blocks n, ∃ b2 ∈ ruleOccurrences blocks n,
        rule_block_eq b1 b2 = false) →
      (n ∉ exclude →
        List.count n (detect_known_issues blocks exclude).1 = List.count n exclude + 1 ∧
        List.count n (detect_known_issues blocks exclude).2 = 1) ∧
      (n ∈ exclude →
        List.count n (detect_known_issues blocks exclude).1 = List.count n exclude ∧
        n ∉ (detect_known_issues blocks exclude).2)) := by
  rcases hsh : ruleOccurrences blocks n with _ | ⟨b0, rest⟩
  · rw [hsh] at hocc
    simp at hocc
  · constructor
    · intro hall
      have hscan := scan_false_of_all_eq n b0 rest exclude hall
      obtain ⟨d1, d2⟩ := detect_characterize blocks exclude n b0 rest hsh
      rw [hscan] at d1 d2
      simp at d1 d2
      exact ⟨d1, List.count_eq_zero.mp d2⟩
    · intro hdiv
      have hdiv' := (divergent_iff b0 rest).mp hdiv
      obtain ⟨d1, d2⟩ := detect_characterize blocks exclude n b0 rest hsh
      constructor
      · intro hnex
        have hscan : scanDupes n b0 rest exclude = true :=
          (scanDupes_iff n b0 rest exclude).mpr ⟨hdiv', hnex⟩
        rw [hscan] at d1 d2
        simp at d1 d2
        exact ⟨d1, d2⟩
      · intro hex
        have hscan : scanDupes n b0 rest exclude = false := by
          cases hv : scanDupes n b0 rest exclude
          · rfl
          · exfalso
            obtain ⟨-, hnex⟩ := (scanDupes_iff n b0 rest exclude).mp hv
            exact hnex hex
        rw [hscan] at d1 d2
        simp at d1 d2
        exact ⟨d1, List.count_eq_zero.mp d2⟩

/-- Witness for C3: two `merge` rules with differing `shell` sub-blocks
are auto-excluded once and reported. -/
theorem claim_C3_duplicate_rule_handling_witness :
    List.count ("merge") (detect_known_issues [mergeBlock1, mergeBlock2] []).1
        = List.count ("merge") ([] : List String) + 1 ∧
    List.count ("merge") (detect_known_issues [mergeBlock1, mergeBlock2] []).2 = 1 :=
  ((claim_C3_duplicate_rule_handling [mergeBlock1, mergeBlock2] [] ("merge")
      (by decide)).2 (by decide)).1 (by decide)

/-- Elements reached through `getElem?` are members. -/
theorem getSome_mem {α : Type} : ∀ (l : List α) (i : Nat) (a : α), l[i]? = some a → a ∈ l := by
  intro l
  induction l with
  | nil => intro i a h; simp at h
  | cons x xs ih =>
    intro i a h
    cases i with
    | zero =>
      simp at h
      exact h ▸ List.mem_cons_self x xs
    | succ n =>
      simp at h
      exact List.mem_cons_of_mem x (ih n a h)

/-- Setting an index to the value it already holds changes nothing. -/
theorem set_get_self {α : Type} : ∀ (l : List α) (i : Nat) (a : α),
    l[i]? = some a → l.set i a = l := by
  intro l
  induction l with
  | nil => intro i a _; rfl
  | cons x xs ih =>
    intro i a h
    cases i with
    | zero => simp at h; rw [List.set_cons_zero, h]
    | succ n => simp at h; rw [List.set_cons_succ, ih n a h]

/-- Offering one sub-block never changes rule or base name. -/
theorem offerContents_sig (b : RuleBlock) (k v : String) :
    nameSig (offerContents b k v) = nameSig b := by
  unfold offerContents
  split
  · rfl
  · rfl

/-- Offering many sub-blocks never changes rule or base name. -/
theorem offerAll_sig (nb : List (String × String)) :
    ∀ b : RuleBlock, nameSig (offerAll b nb) = nameSig b := by
  induction nb with
  | nil => intro b; rfl
  | cons kv rest ih =>
    intro b
    show nameSig (offerAll (offerContents b kv.1 kv.2) rest) = nameSig b
    rw [ih, offerContents_sig]

/-- A merge step leaves the signature map of the sequence unchanged. -/
theorem sig_set (bl : List RuleBlock) (k : Nat) (b : RuleBlock)
    (nb : List (String × String)) (h : bl[k]? = some b) :
    (bl.set k (offerAll b nb)).map nameSig = bl.map nameSig := by
  rw [List.map_set, offerAll_sig]
  apply set_get_self
  rw [List.getElem?_map, h]
  rfl

/-- The rule-name map is the first projection of the signature map. -/
theorem names_of_sig (bl : List RuleBlock) :
    bl.map (fun x => x.rule_name) = (bl.map nameSig).map Prod.fst := by
  rw [List.map_map]
  rfl

/-- Replacing an element the predicate rejects by another rejected
element does not change the first match. -/
theorem find?_set_pred_false {α : Type} (p : α → Bool) :
    ∀ (l : List α) (k : Nat) (a b : α),
      l[k]? = some a → p a = false → p b = false →
      (l.set k b).find? p = l.find? p := by
  intro l
  induction l with
  | nil => intro k a b _ _ _; rfl
  | cons x xs ih =>
    intro k a b hk ha hb
    cases k with
    | zero =>
      simp at hk
      rw [List.set_cons_zero]
      rw [List.find?_cons_of_neg _ (by rw [hb]; exact Bool.noConfusion),
        List.find?_cons_of_neg _ (by rw [hk, ha]; exact Bool.noConfusion)]
    | succ n =>
      simp at hk
      rw [List.set_cons_succ]
      cases hx : p x with
      | true =>
        rw [List.find?_cons_of_pos _ hx, List.find?_cons_of_pos _ hx]
      | false =>
        rw [List.find?_cons_of_neg _ (by rw [hx]; exact Bool.noConfusion),
          List.find?_cons_of_neg _ (by rw [hx]; exact Bool.noConfusion),
          ih n a b hk ha hb]

/-- Lookup in a cons cell. -/
theorem lookupBlock_cons (k2 v : String) (rest : List (String × String)) (k : String) :
    lookupBlock ((k2, v) :: rest) k = if k2 = k then some v else lookupBlock rest k := rfl

/-- First-match lookup distributes over append. -/
theorem lookupBlock_append (l1 l2 : List (String × String)) (k : String) :
    lookupBlock (l1 ++ l2) k =
      match lookupBlock l1 k with
      | some v => some v
      | none => lookupBlock l2 k := by
  induction l1 with
  | nil => rfl
  | cons kv rest ih =>
    obtain ⟨k2, v⟩ := kv
    rw [List.cons_append, lookupBlock_cons, lookupBlock_cons]
    by_cases hk : k2 = k
    · rw [if_pos hk, if_pos hk]
    · rw [if_neg hk, if_neg hk, ih]

/-- A key present in the derived block survives any sequence of offers
with its original value. -/
theorem lookup_offerAll_present (nb : List (String × String)) :
    ∀ (b : RuleBlock) (k v : String), lookupBlock b.named_blocks k = some v →
      lookupBlock (offerAll b nb).named_blocks k = some v := by
  induction nb with
  | nil => intro b k v h; exact h
  | cons kv rest ih =>
    intro b k v h
    show lookupBlock (offerAll (offerContents b kv.1 kv.2) rest).named_blocks k = some v
    apply ih
    unfold offerContents
    split
    · exact h
    · show lookupBlock (b.named_blocks ++ [(kv.1, kv.2)]) k = some v
      rw [lookupBlock_append, h]

/-- A key absent from the derived block ends with the first base value
for it. -/
theorem lookup_offerAll_absent (nb : List (String × String)) :
    ∀ (b : RuleBlock) (k : String), lookupBlock b.named_blocks k = none →
      lookupBlock (offerAll b nb).named_blocks k = lookupBlock nb k := by
  induction nb with
  | nil => intro b k h; exact h
  | cons kv rest ih =>
    intro b k h
    obtain ⟨k2, v2⟩ := kv
    show lookupBlock (offerAll (offerContents b k2 v2) rest).named_blocks k =
      lookupBlock ((k2, v2) :: rest) k
    by_cases hk : k2 = k
    · subst hk
      have hb' : lookupBlock (offerContents b k2 v2).named_blocks k2 = some v2 := by
        unfold offerContents
        rw [h]
        show lookupBlock (b.named_blocks ++ [(k2, v2)]) k2 = some v2
        rw [lookupBlock_append, h, lookupBlock_cons, if_pos rfl]
      rw [lookup_offerAll_present rest _ _ _ hb', lookupBlock_cons, if_pos rfl]
    · have hb' : lookupBlock (offerContents b k2 v2).named_blocks k = none := by
        unfold offerContents
        split
        · exact h
        · show lookupBlock (b.named_blocks ++ [(k2, v2)]) k = none
          rw [lookupBlock_append, h, lookupBlock_cons, if_neg hk]
          rfl
      rw [ih _ _ hb', lookupBlock_cons, if_neg hk]

/-- Positions below the cursor are never touched by resolution. -/
theorem resolveAux_get_lt :
    ∀ (fuel : Nat) (bl : List RuleBlock) (k : Nat) (res : List RuleBlock),
      resolveAux fuel bl k = .ok res → ∀ i : Nat, i < k → res[i]? = bl[i]? := by
  intro fuel
  induction fuel with
  | zero =>
    intro bl k res h i _
    unfold resolveAux at h
    rw [Except.ok.injEq] at h
    rw [h]
  | succ fuel ih =>
    intro bl k res h i hik
    unfold resolveAux at h
    by_cases hk : k < bl.length
    · rw [dif_pos hk] at h
      by_cases hbase : bl[k].base_rule_name = ""
      · rw [if_pos hbase] at h
        exact ih bl (k + 1) res h i (by omega)
      · rw [if_neg hbase] at h
        cases hf : bl.find? (fun b2 => b2.rule_name == bl[k].base_rule_name) with
        | none => rw [hf] at h; exact Except.noConfusion h
        | some bj =>
          rw [hf] at h
          rw [ih _ (k + 1) res h i (by omega)]
          exact List.getElem?_set_ne (by omega)
    · rw [dif_neg hk] at h
      rw [Except.ok.injEq] at h
      rw [h]

/-- Resolution succeeds whenever every nonempty base name among the
signatures is carried as a rule name. -/
theorem resolveAux_ok_of_sig :
    ∀ (fuel : Nat) (bl : List RuleBlock) (k : Nat), SigOk bl →
      ∃ res, resolveAux fuel bl k = .ok res := by
  intro fuel
  induction fuel with
  | zero => intro bl k _; exact ⟨bl, rfl⟩
  | succ fuel ih =>
    intro bl k hC
    unfold resolveAux
    by_cases hk : k < bl.length
    · rw [dif_pos hk]
      by_cases hbase : bl[k].base_rule_name = ""
      · rw [if_pos hbase]
        exact ih bl (k + 1) hC
      · rw [if_neg hbase]
        have hmem : nameSig bl[k] ∈ bl.map nameSig := by
          apply getSome_mem (bl.map nameSig) k
          rw [List.getElem?_map, List.getElem?_eq_getElem hk]
          rfl
        obtain ⟨q, hq, hq1⟩ := hC _ hmem hbase
        obtain ⟨b2, hb2, hb2sig⟩ := List.mem_map.mp hq
        cases hf : bl.find? (fun x => x.rule_name == bl[k].base_rule_name) with
        | none =>
          exfalso
          have := List.find?_eq_none.mp hf b2 hb2
          apply this
          rw [beq_iff_eq]
          have : q.1 = b2.rule_name := by rw [← hb2sig]; rfl
          rw [← this, hq1]
          rfl
        | some bj =>
          exact ih _ (k + 1) (by
            unfold SigOk
            rw [sig_set bl k bl[k] bj.named_blocks (List.getElem?_eq_getElem hk)]
            exact hC)
    · rw [dif_neg hk]
      exact ⟨bl, rfl⟩

/-- A resolution failure names a block with a nonempty base name that no
block carries as its rule name, in the exact message of the source. -/
theorem resolveAux_error :
    ∀ (fuel : Nat) (bl : List RuleBlock) (k : Nat) (msg : String),
      resolveAux fuel bl k = .error msg →
      ∃ i b, k ≤ i ∧ bl[i]? = some b ∧ b.base_rule_name ≠ "" ∧
        b.base_rule_name ∉ bl.map (fun x => x.rule_name) ∧
        msg = missingBaseMsg b.rule_name b.base_rule_name := by
  intro fuel
  induction fuel with
  | zero => intro bl k msg h; exact Except.noConfusion h
  | succ fuel ih =>
    intro bl k msg h
    unfold resolveAux at h
    by_cases hk : k < bl.length
    · rw [dif_pos hk] at h
      by_cases hbase : bl[k].base_rule_name = ""
      · rw [if_pos hbase] at h
        obtain ⟨i, b, hki, hrest⟩ := ih bl (k + 1) msg h
        exact ⟨i, b, by omega, hrest⟩
      · rw [if_neg hbase] at h
        cases hf : bl.find? (fun x => x.rule_name == bl[k].base_rule_name) with
        | none =>
          rw [hf, Except.error.injEq] at h
          refine ⟨k, bl[k], Nat.le_refl k, List.getElem?_eq_getElem hk, hbase, ?_, h.symm⟩
          intro hc
          obtain ⟨b2, hb2, hb2n⟩ := List.mem_map.mp hc
          exact List.find?_eq_none.mp hf b2 hb2 (by rw [beq_iff_eq]; exact hb2n)
        | some bj =>
          rw [hf] at h
          obtain ⟨i, b, hki, hget, hb, hnames, hmsg⟩ := ih _ (k + 1) msg h
          refine ⟨i, b, by omega, ?_, hb, ?_, hmsg⟩
          · rw [← hget]
            exact (List.getElem?_set_ne (by omega)).symm
          · rw [names_of_sig,
              ← sig_set bl k bl[k] bj.named_blocks (List.getElem?_eq_getElem hk),
              ← names_of_sig]
            exact hnames
    · rw [dif_neg hk] at h
      exact Except.noConfusion h

/-- A successful resolution certifies that every nonempty base name from
the cursor on is carried as a rule name. -/
theorem resolveAux_ok_present :
    ∀ (fuel : Nat) (bl : List RuleBlock) (k : Nat) (res : List RuleBlock),
      bl.length ≤ k + fuel → resolveAux fuel bl k = .ok res →
      ∀ (i : Nat) (b : RuleBlock), k ≤ i → bl[i]? = some b → b.base_rule_name ≠ "" →
        b.base_rule_name ∈ bl.map (fun x => x.rule_name) := by
  intro fuel
  induction fuel with
  | zero =>
    intro bl k res hlen _ i b hki hget _
    exfalso
    have : i < bl.length := by
      by_contra hc
      rw [List.getElem?_eq_none (by omega)] at hget
      exact Option.noConfusion hget
    omega
  | succ fuel ih =>
    intro bl k res hlen h i b hki hget hbase
    unfold resolveAux at h
    by_cases hk : k < bl.length
    · rw [dif_pos hk] at h
      by_cases hkbase : bl[k].base_rule_name = ""
      · rw [if_pos hkbase] at h
        rcases Nat.eq_or_lt_of_le hki with heq | hlt
        · rw [← heq, List.getElem?_eq_getElem hk, Option.some.injEq] at hget
          rw [← hget] at hbase
          exact absurd hkbase hbase
        · exact ih bl (k + 1) res (by omega) h i b hlt hget hbase
      · rw [if_neg hkbase] at h
        cases hf : bl.find? (fun x => x.rule_name == bl[k].base_rule_name) with
        | none => rw [hf] at h; exact Except.noConfusion h
        | some bj =>
          rw [hf] at h
          rcases Nat.eq_or_lt_of_le hki with heq | hlt
          · rw [← heq, List.getElem?_eq_getElem hk, Option.some.injEq] at hget
            have hbjmem := List.mem_of_find?_eq_some hf
            have hbjp := List.find?_some hf
            rw [beq_iff_eq] at hbjp
            rw [List.mem_map]
            exact ⟨bj, hbjmem, by rw [hbjp, hget]⟩
          · have := ih _ (k + 1) res (by rw [List.length_set]; omega) h i b hlt
              (by rw [List.getElem?_set_ne (by omega)]; exact hget) hbase
            rw [names_of_sig,
              ← sig_set bl k bl[k] bj.named_blocks (List.getElem?_eq_getElem hk),
              ← names_of_sig]
            exact this
    · rw [dif_neg hk] at h
      exfalso
      have : i < bl.length := by
        by_contra hc
        rw [List.getElem?_eq_none (by omega)] at hget
        exact Option.noConfusion hget
      omega

/-- Under single-level inheritance, a successful resolution rewrites
every derived block (at or past the cursor) into the merge of its
original content with the first block carrying its base name. -/
theorem resolveAux_ok_spec :
    ∀ (fuel : Nat) (bl : List RuleBlock) (k : Nat) (res : List RuleBlock),
      SingleLevel bl → bl.length ≤ k + fuel → resolveAux fuel bl k = .ok res →
      ∀ (i : Nat) (b : RuleBlock), k ≤ i → bl[i]? = some b →
        (b.base_rule_name = "" → res[i]? = some b) ∧
        (b.base_rule_name ≠ "" → ∃ bj,
          bl.find? (fun x => x.rule_name == b.base_rule_name) = some bj ∧
          res[i]? = some (offerAll b bj.named_blocks)) := by
  intro fuel
  induction fuel with
  | zero =>
    intro bl k res _ hlen _ i b hki hget
    exfalso
    have : i < bl.length := by
      by_contra hc
      rw [List.getElem?_eq_none (by omega)] at hget
      exact Option.noConfusion hget
    omega
  | succ fuel ih =>
    intro bl k res hsig hlen h i b hki hget
    unfold resolveAux at h
    by_cases hk : k < bl.length
    · rw [dif_pos hk] at h
      by_cases hkbase : bl[k].base_rule_name = ""
      · rw [if_pos hkbase] at h
        rcases Nat.eq_or_lt_of_le hki with heq | hlt
        · subst heq
          rw [List.getElem?_eq_getElem hk, Option.some.injEq] at hget
          constructor
          · intro _
            rw [resolveAux_get_lt fuel bl (k + 1) res h k (by omega),
              List.getElem?_eq_getElem hk, hget]
          · intro hbase
            rw [hget] at hkbase
            exact absurd hkbase hbase
        · exact ih bl (k + 1) res hsig (by omega) h i b hlt hget
      · rw [if_neg hkbase] at h
        cases hf : bl.find? (fun x => x.rule_name == bl[k].base_rule_name) with
        | none => rw [hf] at h; exact Except.noConfusion h
        | some bj =>
          rw [hf] at h
          have hsig' : SingleLevel (bl.set k (offerAll bl[k] bj.named_blocks)) := by
            unfold SingleLevel
            rw [sig_set bl k bl[k] bj.named_blocks (List.getElem?_eq_getElem hk)]
            exact hsig
          rcases Nat.eq_or_lt_of_le hki with heq | hlt
          · subst heq
            rw [List.getElem?_eq_getElem hk, Option.some.injEq] at hget
            constructor
            · intro hbase
              rw [← hget] at hbase
              exact absurd hbase hkbase
            · intro _
              refine ⟨bj, by rw [hget] at hf; exact hf, ?_⟩
              rw [resolveAux_get_lt fuel _ (k + 1) res h k (by omega)]
              rw [List.getElem?_set_self hk, hget]
          · have hget' : (bl.set k (offerAll bl[k] bj.named_blocks))[i]? = some b := by
              rw [List.getElem?_set_ne (by omega)]
              exact hget
            obtain ⟨hc1, hc2⟩ := ih _ (k + 1) res hsig' (by rw [List.length_set]; omega)
              h i b hlt hget'
            refine ⟨hc1, ?_⟩
            intro hbase
            obtain ⟨bj', hfind', hres'⟩ := hc2 hbase
            refine ⟨bj', ?_, hres'⟩
            rw [← hfind']
            symm
            apply find?_set_pred_false _ bl k bl[k] _ (List.getElem?_eq_getElem hk)
            · cases hpk : (bl[k].rule_name == b.base_rule_name) with
              | false => rfl
              | true =>
                exfalso
                rw [beq_iff_eq] at hpk
                have hpmem : nameSig bl[k] ∈ bl.map nameSig := by
                  apply getSome_mem (bl.map nameSig) k
                  rw [List.getElem?_map, List.getElem?_eq_getElem hk]
                  rfl
                have hqmem : nameSig b ∈ bl.map nameSig := by
                  apply getSome_mem (bl.map nameSig) i
                  rw [List.getElem?_map, hget]
                  rfl
                exact hkbase (hsig _ hpmem _ hqmem hbase hpk)
            · cases hpk : ((offerAll bl[k] bj.named_blocks).rule_name == b.base_rule_name) with
              | false => rfl
              | true =>
                exfalso
                rw [beq_iff_eq] at hpk
                have hon : (offerAll bl[k] bj.named_blocks).rule_name = bl[k].rule_name := by
                  have := offerAll_sig bj.named_blocks bl[k]
                  unfold nameSig at this
                  rw [Prod.mk.injEq] at this
                  exact this.1
                rw [hon] at hpk
                have hpmem : nameSig bl[k] ∈ bl.map nameSig := by
                  apply getSome_mem (bl.map nameSig) k
                  rw [List.getElem?_map, List.getElem?_eq_getElem hk]
                  rfl
                have hqmem : nameSig b ∈ bl.map nameSig := by
                  apply getSome_mem (bl.map nameSig) i
                  rw [List.getElem?_map, hget]
                  rfl
                exact hkbase (hsig _ hpmem _ hqmem hbase hpk)
    · rw [dif_neg hk] at h
      exfalso
      have : i < bl.length := by
        by_contra hc
        rw [List.getElem?_eq_none (by omega)] at hget
        exact Option.noConfusion hget
      omega

/-- C5: for every block with a nonempty base rule name,
`resolve_derived_rules` raises a fatal error naming both the derived
rule and the missing base rule when no block carries that base name;
otherwise, under single-level inheritance, every base sub-block key
absent from the derived block before resolution is present afterward
with the base's value, and keys already present keep their original
value. -/
theorem claim_C5_resolve_derived_rules (blocks : List RuleBlock) :
    ((∃ res, resolve_derived_rules blocks = .ok res) ↔
      ∀ b ∈ blocks, b.base_rule_name ≠ "" →
        ∃ b2 ∈ blocks, b2.rule_name = b.base_rule_name) ∧
    (∀ msg, resolve_derived_rules blocks = .error msg →
      ∃ b ∈ blocks, b.base_rule_name ≠ "" ∧
        (∀ b2 ∈ blocks, b2.rule_name ≠ b.base_rule_name) ∧
        msg = missingBaseMsg b.rule_name b.base_rule_name) ∧
    (SingleLevel blocks →
      ∀ res, resolve_derived_rules blocks = .ok res →
        ∀ (i : Nat) (b : RuleBlock), blocks[i]? = some b → b.base_rule_name ≠ "" →
          ∃ bj, blocks.find? (fun x => x.rule_name == b.base_rule_name) = some bj ∧
            res[i]? = some (offerAll b bj.named_blocks) ∧
            (∀ k v, lookupBlock b.named_blocks k = some v →
              lookupBlock (offerAll b bj.named_blocks).named_blocks k = some v) ∧
            (∀ k, lookupBlock b.named_blocks k = none →
              lookupBlock (offerAll b bj.named_blocks).named_blocks k =
                lookupBlock bj.named_blocks k)) := by
  refine ⟨⟨?_, ?_⟩, ?_, ?_⟩
  · rintro ⟨res, hres⟩ b hb hbase
    obtain ⟨i, hi, hgetElem⟩ := List.getElem_of_mem hb
    have hget : blocks[i]? = some b := by
      rw [List.getElem?_eq_getElem hi, hgetElem]
    have hmem := resolveAux_ok_present blocks.length blocks 0 res (by omega) hres
      i b (by omega) hget hbase
    obtain ⟨b2, hb2, hb2n⟩ := List.mem_map.mp hmem
    exact ⟨b2, hb2, hb2n⟩
  · intro hcond
    have hsig : SigOk blocks := by
      intro p hp hp2
      obtain ⟨b, hb, hbsig⟩ := List.mem_map.mp hp
      have hbase : b.base_rule_name ≠ "" := by
        rw [← hbsig] at hp2
        exact hp2
      obtain ⟨b2, hb2, hb2n⟩ := hcond b hb hbase
      refine ⟨nameSig b2, List.mem_map.mpr ⟨b2, hb2, rfl⟩, ?_⟩
      show b2.rule_name = p.2
      rw [hb2n, ← hbsig]
      rfl
    exact resolveAux_ok_of_sig blocks.length blocks 0 hsig
  · intro msg hmsg
    obtain ⟨i, b, -, hget, hbase, hnames, hm⟩ :=
      resolveAux_error blocks.length blocks 0 msg hmsg
    refine ⟨b, getSome_mem blocks i b hget, hbase, ?_, hm⟩
    intro b2 hb2 hc
    exact hnames (List.mem_map.mpr ⟨b2, hb2, hc⟩)
  · intro hsl res hres i b hget hbase
    obtain ⟨-, hc2⟩ := resolveAux_ok_spec blocks.length blocks 0 res hsl (by omega)
      hres i b (by omega) hget
    obtain ⟨bj, hfind, hresi⟩ := hc2 hbase
    exact ⟨bj, hfind, hresi,
      fun k v h => lookup_offerAll_present bj.named_blocks b k v h,
      fun k h => lookup_offerAll_absent bj.named_blocks b k h⟩

/-- Witness for C5 at a concrete derived/base pair. -/
theorem claim_C5_resolve_derived_rules_witness :
    ∃ bj, ([derivedBlockEx, baseBlockEx] : List RuleBlock).find?
        (fun x => x.rule_name == derivedBlockEx.base_rule_name) = some bj ∧
      ([derivedBlockMerged, baseBlockEx] : List RuleBlock)[0]? =
        some (offerAll derivedBlockEx bj.named_blocks) ∧
      (∀ k v, lookupBlock derivedBlockEx.named_blocks k = some v →
        lookupBlock (offerAll derivedBlockEx bj.named_blocks).named_blocks k = some v) ∧
      (∀ k, lookupBlock derivedBlockEx.named_blocks k = none →
        lookupBlock (offerAll derivedBlockEx bj.named_blocks).named_blocks k =
          lookupBlock bj.named_blocks k) :=
  (claim_C5_resolve_derived_rules [derivedBlockEx, baseBlockEx]).2.2
    (by unfold SingleLevel; decide) [derivedBlockMerged, baseBlockEx] (by rfl)
    0 derivedBlockEx (by rfl) (by decide)

/-- C6: targeted rendering emits one item per block in original
sequence order: opaque (unnamed) blocks and blocks whose rule name
equals the target or lies in the retain set print verbatim, every other
rule block prints a `pass` stand-in indented by its global plus local
indentation; if no block carries the target name a fatal error naming
that rule is raised.  With an empty retain set the spec-modelled
rendering coincides with the source's `report_single_rule`. -/
theorem claim_C6_targeted_rendering :
    (∀ (blocks : List RuleBlock) (t : String),
        emitTargeted blocks t [] = report_single_rule blocks t) ∧
    (∀ (blocks : List RuleBlock) (t : String) (retain : List String),
        (emitTargeted blocks t retain).1.length = blocks.length ∧
        (∀ (i : Nat) (b : RuleBlock), blocks[i]? = some b →
          ((b.rule_name = t ∨ b.rule_name ∈ retain ∨ b.rule_name = "") →
            (emitTargeted blocks t retain).1[i]? = some (OutputItem.verbatim b)) ∧
          (b.rule_name ≠ t → b.rule_name ∉ retain → b.rule_name ≠ "" →
            (emitTargeted blocks t retain).1[i]? =
              some (OutputItem.passLine
                (b.global_indentation + b.local_indentation))))) ∧
    (∀ (blocks : List RuleBlock) (t : String) (retain : List String),
        ((∀ b ∈ blocks, b.rule_name ≠ t) →
          (emitTargeted blocks t retain).2 = some (targetNotFoundMsg t)) ∧
        ((∃ b ∈ blocks, b.rule_name = t) →
          (emitTargeted blocks t retain).2 = none)) := by
  refine ⟨?_, ?_, ?_⟩
  · intro blocks t
    unfold emitTargeted report_single_rule
    simp only [List.mem_nil_iff, false_or]
  · intro blocks t retain
    constructor
    · unfold emitTargeted
      rw [List.length_map]
    · intro i b hget
      have hval : (emitTargeted blocks t retain).1[i]? =
          some (if b.rule_name = t ∨ b.rule_name ∈ retain ∨ b.rule_name = "" then
              OutputItem.verbatim b
            else OutputItem.passLine (b.global_indentation + b.local_indentation)) := by
        unfold emitTargeted
        rw [List.getElem?_map, hget]
        rfl
      constructor
      · intro hcond
        rw [hval, if_pos hcond]
      · intro h1 h2 h3
        rw [hval, if_neg ?_]
        rintro (hc | hc | hc)
        · exact h1 hc
        · exact h2 hc
        · exact h3 hc
  · intro blocks t retain
    constructor
    · intro hnone
      have hany : blocks.any (fun b => b.rule_name == t) = false := by
        cases hv : blocks.any (fun b => b.rule_name == t)
        · rfl
        · exfalso
          obtain ⟨b, hb, hbt⟩ := List.any_eq_true.mp hv
          exact hnone b hb (beq_iff_eq.mp hbt)
      unfold emitTargeted
      rw [if_neg (by simp [hany])]
    · rintro ⟨b, hb, hbt⟩
      have hany : blocks.any (fun b => b.rule_name == t) = true :=
        List.any_eq_true.mpr ⟨b, hb, beq_iff_eq.mpr hbt⟩
      unfold emitTargeted
      rw [if_pos hany]

/-- Witness for C6: a missing target raises the error naming it, and a
retained-out rule prints the `pass` stand-in. -/
theorem claim_C6_targeted_rendering_witness :
    (emitTargeted [mergeBlock1] ("nope") []).2 = some (targetNotFoundMsg ("nope")) ∧
    (emitTargeted [mergeBlock1] ("zzz") []).1[0]? =
      some (OutputItem.passLine
        (mergeBlock1.global_indentation + mergeBlock1.local_indentation)) :=
  ⟨(claim_C6_targeted_rendering.2.2 [mergeBlock1] ("nope") []).1 (by decide),
    ((claim_C6_targeted_rendering.2.1 [mergeBlock1] ("zzz") []).2 0 mergeBlock1
      (by rfl)).2 (by decide) (by decide) (by decide)⟩

/-- Fatal-free scans succeed, collecting exactly the names of
missing-classified lines on top of the accumulator. -/
theorem findMissingAux_ok :
    ∀ (lines : List String) (acc : List String),
      (∀ l ∈ lines, classifyLine l ≠ LineClass.fatal) →
      ∃ ns, findMissingAux lines acc = .ok ns ∧
        ∀ x, x ∈ ns ↔ (x ∈ acc ∨ ∃ l ∈ lines, classifyLine l = LineClass.missing x) := by
  intro lines
  induction lines with
  | nil =>
    intro acc _
    refine ⟨acc, rfl, ?_⟩
    intro x
    simp
  | cons l rest ih =>
    intro acc hfat
    have hl := hfat l (List.mem_cons_self l rest)
    have hrest : ∀ l2 ∈ rest, classifyLine l2 ≠ LineClass.fatal :=
      fun l2 h2 => hfat l2 (List.mem_cons_of_mem l h2)
    cases hcl : classifyLine l with
    | fatal => exact absurd hcl hl
    | ignore =>
      obtain ⟨ns, hns, hiff⟩ := ih acc hrest
      refine ⟨ns, ?_, ?_⟩
      · unfold findMissingAux
        rw [hcl]
        exact hns
      · intro x
        rw [hiff x]
        constructor
        · rintro (h | ⟨l2, h2, h3⟩)
          · exact Or.inl h
          · exact Or.inr ⟨l2, List.mem_cons_of_mem l h2, h3⟩
        · rintro (h | ⟨l2, h2, h3⟩)
          · exact Or.inl h
          · rcases List.mem_cons.mp h2 with h4 | h4
            · rw [h4, hcl] at h3
              exact absurd h3 (by intro hc; exact LineClass.noConfusion hc)
            · exact Or.inr ⟨l2, h4, h3⟩
    | missing n =>
      obtain ⟨ns, hns, hiff⟩ := ih (if n ∈ acc then acc else acc ++ [n]) hrest
      refine ⟨ns, ?_, ?_⟩
      · unfold findMissingAux
        rw [hcl]
        exact hns
      · intro x
        rw [hiff x]
        have hacc : (x ∈ (if n ∈ acc then acc else acc ++ [n])) ↔ (x ∈ acc ∨ x = n) := by
          by_cases hmem : n ∈ acc
          · rw [if_pos hmem]
            constructor
            · exact Or.inl
            · rintro (h | h)
              · exact h
              · rw [h]; exact hmem
          · rw [if_neg hmem, List.mem_append, List.mem_singleton]
        rw [hacc]
        constructor
        · rintro ((h | h) | ⟨l2, h2, h3⟩)
          · exact Or.inl h
          · exact Or.inr ⟨l, List.mem_cons_self l rest, by rw [hcl, h]⟩
          · exact Or.inr ⟨l2, List.mem_cons_of_mem l h2, h3⟩
        · rintro (h | ⟨l2, h2, h3⟩)
          · exact Or.inl (Or.inl h)
          · rcases List.mem_cons.mp h2 with h4 | h4
            · rw [h4, hcl] at h3
              have : n = x := by
                injection h3
              exact Or.inl (Or.inr this.symm)
            · exact Or.inr ⟨l2, h4, h3⟩

/-- The first fatal-classified line aborts the scan, surfacing the line
verbatim. -/
theorem findMissingAux_error :
    ∀ (pre : List String) (bad : String) (post : List String) (acc : List String),
      (∀ l ∈ pre, classifyLine l ≠ LineClass.fatal) →
      classifyLine bad = LineClass.fatal →
      findMissingAux (pre ++ bad :: post) acc = .error bad := by
  intro pre
  induction pre with
  | nil =>
    intro bad post acc _ hbad
    rw [List.nil_append]
    unfold findMissingAux
    rw [hbad]
  | cons l pre ih =>
    intro bad post acc hfat hbad
    have hl := hfat l (List.mem_cons_self l pre)
    have hpre : ∀ l2 ∈ pre, classifyLine l2 ≠ LineClass.fatal :=
      fun l2 h2 => hfat l2 (List.mem_cons_of_mem l h2)
    rw [List.cons_append]
    cases hcl : classifyLine l with
    | fatal => exact absurd hcl hl
    | ignore =>
      unfold findMissingAux
      rw [hcl]
      exact ih bad post acc hpre hbad
    | missing n =>
      unfold findMissingAux
      rw [hcl]
      exact ih bad post _ hpre hbad

/-- C7: `find_missing_rules` records, keyed by name, exactly the names
appearing in lines matching one of the two fixed missing-attribute
shapes; any other line beginning with the generic error marker aborts
the scan surfacing the offending line verbatim; lines with neither
shape nor marker are ignored.  The five-line and two-line scenarios of
the unit tests are evaluated concretely. -/
theorem claim_C7_find_missing_rules :
    (∀ lines : List String, (∀ l ∈ lines, classifyLine l ≠ LineClass.fatal) →
      ∃ ns, find_missing_rules lines = .ok ns ∧
        ∀ x, x ∈ ns ↔ ∃ l ∈ lines, classifyLine l = LineClass.missing x) ∧
    (∀ (pre : List String) (bad : String) (post : List String),
      (∀ l ∈ pre, classifyLine l ≠ LineClass.fatal) →
      classifyLine bad = LineClass.fatal →
      find_missing_rules (pre ++ bad :: post) = .error bad) ∧
    find_missing_rules
        [execLogLine1, execLogLine2, execLogLine3, execLogLine4, execLogLine5]
      = .ok ["rulename1", "rulename2", "check1", "check2"] ∧
    find_missing_rules [execLogLine3, execLogBadLine] = .error execLogBadLine ∧
    classifyLine execLogLine3 = LineClass.ignore := by
  refine ⟨?_, ?_, by rfl, by rfl, by decide⟩
  · intro lines hfat
    obtain ⟨ns, hns, hiff⟩ := findMissingAux_ok lines [] hfat
    refine ⟨ns, hns, ?_⟩
    intro x
    rw [hiff x]
    simp
  · intro pre bad post hfat hbad
    exact findMissingAux_error pre bad post [] hfat hbad

/-- Witness for C7: the unexpected-error scenario through the general
abort clause. -/
theorem claim_C7_find_missing_rules_witness :
    find_missing_rules ([execLogLine3] ++ execLogBadLine :: []) = .error execLogBadLine :=
  claim_C7_find_missing_rules.2.1 [execLogLine3] execLogBadLine []
    (by decide) (by decide)

/-- Lookup in the empty map. -/
theorem lookupOut_nil (p : String) : lookupOut [] p = none := rfl

/-- Lookup in a cons cell. -/
theorem lookupOut_cons (q : String) (i : Nat) (rest : List (String × Nat)) (p : String) :
    lookupOut ((q, i) :: rest) p = if q = p then some i else lookupOut rest p := rfl

/-- Lookup distributes over append. -/
theorem lookupOut_append (l1 l2 : List (String × Nat)) (p : String) :
    lookupOut (l1 ++ l2) p =
      match lookupOut l1 p with
      | some v => some v
      | none => lookupOut l2 p := by
  induction l1 with
  | nil => rfl
  | cons qi rest ih =>
    obtain ⟨q, i⟩ := qi
    rw [List.cons_append, lookupOut_cons, lookupOut_cons]
    by_cases hq : q = p
    · rw [if_pos hq, if_pos hq]
    · rw [if_neg hq, if_neg hq, ih]

/-- An absent key is the same as the membership scan failing. -/
theorem lookupOut_none_iff (m : List (String × Nat)) (p : String) :
    lookupOut m p = none ↔ m.any (fun q => q.1 == p) = false := by
  induction m with
  | nil => simp [lookupOut_nil]
  | cons qi rest ih =>
    obtain ⟨q, i⟩ := qi
    rw [lookupOut_cons, List.any_cons]
    by_cases hq : q = p
    · rw [if_pos hq]
      simp [hq]
    · rw [if_neg hq, ih]
      simp [hq]

/-- In-place overwrite: the key maps to the new value. -/
theorem lookupOut_map_overwrite :
    ∀ (m : List (String × Nat)) (k : String) (v : Nat),
      m.any (fun q => q.1 == k) = true →
      lookupOut (m.map (fun q => if q.1 = k then (k, v) else q)) k = some v := by
  intro m
  induction m with
  | nil => intro k v h; simp at h
  | cons qi rest ih =>
    intro k v hany
    obtain ⟨q, i⟩ := qi
    rw [List.map_cons]
    by_cases hq : q = k
    · have h1 : (if (q, i).1 = k then (k, v) else (q, i)) = (k, v) := by
        rw [if_pos hq]
      rw [h1, lookupOut_cons, if_pos rfl]
    · have h1 : (if (q, i).1 = k then (k, v) else (q, i)) = (q, i) := by
        rw [if_neg hq]
      rw [h1, lookupOut_cons, if_neg hq]
      apply ih
      rw [List.any_cons] at hany
      rcases Bool.or_eq_true _ _ ▸ hany with h | h
      · exact absurd (beq_iff_eq.mp h) hq
      · exact h

/-- In-place overwrite leaves every other key unchanged. -/
theorem lookupOut_map_ne :
    ∀ (m : List (String × Nat)) (k : String) (v : Nat) (p : String), p ≠ k →
      lookupOut (m.map (fun q => if q.1 = k then (k, v) else q)) p = lookupOut m p := by
  intro m
  induction m with
  | nil => intro k v p _; rfl
  | cons qi rest ih =>
    intro k v p hp
    obtain ⟨q, i⟩ := qi
    rw [List.map_cons]
    by_cases hq : q = k
    · have h1 : (if (q, i).1 = k then (k, v) else (q, i)) = (k, v) := by
        rw [if_pos hq]
      rw [h1, lookupOut_cons, lookupOut_cons,
        if_neg (fun hc => hp hc.symm), if_neg (by rw [hq]; exact fun hc => hp hc.symm)]
      exact ih k v p hp
    · have h1 : (if (q, i).1 = k then (k, v) else (q, i)) = (q, i) := by
        rw [if_neg hq]
      rw [h1, lookupOut_cons, lookupOut_cons]
      by_cases hqp : q = p
      · rw [if_pos hqp, if_pos hqp]
      · rw [if_neg hqp, if_neg hqp]
        exact ih k v p hp

/-- Overwriting insertion: the inserted key maps to the new value. -/
theorem lookupOut_setAssoc_self (m : List (String × Nat)) (k : String) (v : Nat) :
    lookupOut (setAssoc m k v) k = some v := by
  unfold setAssoc
  by_cases hany : m.any (fun q => q.1 == k) = true
  · rw [if_pos hany]
    exact lookupOut_map_overwrite m k v hany
  · rw [if_neg hany, lookupOut_append]
    have hnone : lookupOut m k = none := by
      rw [lookupOut_none_iff]
      cases hv : m.any (fun q => q.1 == k)
      · rfl
      · exact absurd hv hany
    rw [hnone]
    show lookupOut [(k, v)] k = some v
    rw [lookupOut_cons, if_pos rfl]

/-- Overwriting insertion leaves every other key unchanged. -/
theorem lookupOut_setAssoc_ne (m : List (String × Nat)) (k : String) (v : Nat)
    (p : String) (hp : p ≠ k) :
    lookupOut (setAssoc m k v) p = lookupOut m p := by
  unfold setAssoc
  by_cases hany : m.any (fun q => q.1 == k) = true
  · rw [if_pos hany]
    exact lookupOut_map_ne m k v p hp
  · rw [if_neg hany, lookupOut_append]
    cases hm : lookupOut m p with
    | some x => rfl
    | none =>
      show lookupOut [(k, v)] p = none
      rw [lookupOut_cons, if_neg (fun hc => hp hc.symm)]
      rfl

/-- Inserting the outputs of a recipe: a path among them now maps to that
recipe, all other paths are unchanged. -/
theorem foldOuts_lookup :
    ∀ (outs : List String) (st : List (String × Nat) × Bool) (i : Nat) (p : String),
      lookupOut ((outs.foldl (fun st2 q => insertPath st2 i q) st).1) p =
        if p ∈ outs then some i else lookupOut st.1 p := by
  intro outs
  induction outs with
  | nil =>
    intro st i p
    rw [List.foldl_nil, if_neg (by simp)]
  | cons q rest ih =>
    intro st i p
    rw [List.foldl_cons, ih]
    by_cases hrest : p ∈ rest
    · rw [if_pos hrest, if_pos (List.mem_cons_of_mem q hrest)]
    · rw [if_neg hrest]
      by_cases hpq : p = q
      · rw [if_pos (by rw [hpq]; exact List.mem_cons_self q rest)]
        show lookupOut (setAssoc st.1 q i) p = some i
        rw [hpq]
        exact lookupOut_setAssoc_self st.1 q i
      · rw [if_neg (by rw [List.mem_cons]; rintro (h | h); exacts [hpq h, hrest h])]
        exact lookupOut_setAssoc_ne st.1 q i p hpq

/-- The duplicate warning never resets during the outputs of one recipe. -/
theorem foldOuts_warn_mono :
    ∀ (outs : List String) (st : List (String × Nat) × Bool) (i : Nat),
      st.2 = true → ((outs.foldl (fun st2 q => insertPath st2 i q) st)).2 = true := by
  intro outs
  induction outs with
  | nil => intro st i h; exact h
  | cons q rest ih =>
    intro st i h
    rw [List.foldl_cons]
    refine ih _ i ?_
    show (st.2 || st.1.any (fun r => r.1 == q)) = true
    rw [h]
    rfl

/-- Re-inserting a path that is already mapped fires the warning. -/
theorem foldOuts_warn_trigger :
    ∀ (outs : List String) (st : List (String × Nat) × Bool) (i : Nat) (p : String),
      p ∈ outs → (lookupOut st.1 p).isSome = true →
      ((outs.foldl (fun st2 q => insertPath st2 i q) st)).2 = true := by
  intro outs
  induction outs with
  | nil => intro st i p h _; simp at h
  | cons q rest ih =>
    intro st i p hmem hsome
    rw [List.foldl_cons]
    by_cases hpq : p = q
    · apply foldOuts_warn_mono
      show (st.2 || st.1.any (fun r => r.1 == q)) = true
      have hq : st.1.any (fun r => r.1 == q) = true := by
        cases hv : st.1.any (fun r => r.1 == q)
        · exfalso
          have hn := (lookupOut_none_iff st.1 q).mpr hv
          rw [← hpq] at hn
          rw [hn] at hsome
          exact Bool.noConfusion hsome
        · rfl
      rw [hq, Bool.or_true]
    · rcases List.mem_cons.mp hmem with h | h
      · exact absurd h hpq
      · refine ih _ i p h ?_
        show (lookupOut (setAssoc st.1 q i) p).isSome = true
        rw [lookupOut_setAssoc_ne st.1 q i p hpq]
        exact hsome

/-- The warning never resets across recipes. -/
theorem buildAux_warn_mono :
    ∀ (recipes : List Recipe) (i : Nat) (st : List (String × Nat) × Bool),
      st.2 = true → (buildAux recipes i st).2 = true := by
  intro recipes
  induction recipes with
  | nil => intro i st h; exact h
  | cons r rest ih =>
    intro i st h
    exact ih (i + 1) _ (foldOuts_warn_mono r.outputs st i h)

/-- A path already mapped that some later recipe also produces fires the
warning. -/
theorem buildAux_warn_trigger :
    ∀ (recipes : List Recipe) (i : Nat) (st : List (String × Nat) × Bool) (p : String),
      (lookupOut st.1 p).isSome = true → (∃ r ∈ recipes, p ∈ r.outputs) →
      (buildAux recipes i st).2 = true := by
  intro recipes
  induction recipes with
  | nil =>
    rintro i st p _ ⟨r, hr, -⟩
    simp at hr
  | cons r rest ih =>
    rintro i st p hsome ⟨r2, hr2, hout⟩
    by_cases hp : p ∈ r.outputs
    · exact buildAux_warn_mono rest (i + 1) _ (foldOuts_warn_trigger r.outputs st i p hp hsome)
    · have hr2r : r2 ∈ rest := by
        rcases List.mem_cons.mp hr2 with h | h
        · rw [h] at hout
          exact absurd hout hp
        · exact h
      refine ih (i + 1) _ p ?_ ⟨r2, hr2r, hout⟩
      rw [foldOuts_lookup r.outputs st i p, if_neg hp]
      exact hsome

/-- The lookup after construction maps each path to the last producing
recipe, offset by the starting index. -/
theorem buildAux_lookup :
    ∀ (recipes : List Recipe) (i : Nat) (st : List (String × Nat) × Bool) (p : String),
      lookupOut ((buildAux recipes i st).1) p =
        match lastIdx p recipes with
        | some k => some (i + k)
        | none => lookupOut st.1 p := by
  intro recipes
  induction recipes with
  | nil => intro i st p; rfl
  | cons r rest ih =>
    intro i st p
    show lookupOut ((buildAux rest (i + 1) _).1) p = _
    rw [ih (i + 1) _ p]
    cases hli : lastIdx p rest with
    | some k =>
      show some (i + 1 + k) = _
      unfold lastIdx
      rw [hli]
      show some (i + 1 + k) = some (i + (k + 1))
      rw [Nat.add_assoc, Nat.add_comm 1 k]
    | none =>
      rw [foldOuts_lookup r.outputs st i p]
      unfold lastIdx
      rw [hli]
      by_cases hp : p ∈ r.outputs
      · rw [if_pos hp, if_pos hp]
        simp
      · rw [if_neg hp, if_neg hp]

/-- A `lastIdx` hit names a recipe producing the path. -/
theorem lastIdx_spec :
    ∀ (recipes : List Recipe) (p : String) (k : Nat), lastIdx p recipes = some k →
      ∃ rk, recipes[k]? = some rk ∧ p ∈ rk.outputs := by
  intro recipes
  induction recipes with
  | nil => intro p k h; exact Option.noConfusion h
  | cons r rest ih =>
    intro p k h
    unfold lastIdx at h
    cases hli : lastIdx p rest with
    | some k2 =>
      rw [hli, Option.some.injEq] at h
      obtain ⟨rk, hrk, hout⟩ := ih p k2 hli
      exact ⟨rk, by rw [← h]; simpa using hrk, hout⟩
    | none =>
      rw [hli] at h
      by_cases hp : p ∈ r.outputs
      · rw [if_pos hp, Option.some.injEq] at h
        exact ⟨r, by rw [← h]; simp, hp⟩
      · rw [if_neg hp] at h
        exact Option.noConfusion h

/-- When no recipe produces the path, `lastIdx` misses. -/
theorem lastIdx_none :
    ∀ (recipes : List Recipe) (p : String), lastIdx p recipes = none →
      ∀ (j : Nat) (rj : Recipe), recipes[j]? = some rj → p ∉ rj.outputs := by
  intro recipes
  induction recipes with
  | nil => intro p _ j rj h; simp at h
  | cons r rest ih =>
    intro p hnone j rj hget
    unfold lastIdx at hnone
    cases hli : lastIdx p rest with
    | some k2 => rw [hli] at hnone; exact Option.noConfusion hnone
    | none =>
      rw [hli] at hnone
      by_cases hp : p ∈ r.outputs
      · rw [if_pos hp] at hnone
        exact Option.noConfusion hnone
      · cases j with
        | zero =>
          simp at hget
          rw [← hget]
          exact hp
        | succ j2 =>
          simp at hget
          exact ih p hli j2 rj hget

/-- The last producing index dominates every producing index. -/
theorem lastIdx_ge :
    ∀ (recipes : List Recipe) (p : String) (j : Nat) (rj : Recipe),
      recipes[j]? = some rj → p ∈ rj.outputs →
      ∃ k, lastIdx p recipes = some k ∧ j ≤ k := by
  intro recipes
  induction recipes with
  | nil => intro p j rj h _; simp at h
  | cons r rest ih =>
    intro p j rj hget hout
    cases hli : lastIdx p rest with
    | some k2 =>
      refine ⟨k2 + 1, by unfold lastIdx; rw [hli], ?_⟩
      cases j with
      | zero => omega
      | succ j2 =>
        simp at hget
        obtain ⟨k3, hk3, hle⟩ := ih p j2 rj hget hout
        rw [hk3, Option.some.injEq] at hli
        omega
    | none =>
      cases j with
      | zero =>
        simp at hget
        refine ⟨0, ?_, Nat.le_refl 0⟩
        unfold lastIdx
        rw [hli, if_pos (by rw [hget]; exact hout)]
      | succ j2 =>
        exfalso
        simp at hget
        exact lastIdx_none rest p hli j2 rj hget hout

/-- A pair of recipes sharing an output path fires the warning. -/
theorem buildAux_warn_dup :
    ∀ (recipes : List Recipe) (idx : Nat) (st : List (String × Nat) × Bool)
      (i j : Nat) (p : String) (ri rj : Recipe), i < j →
      recipes[i]? = some ri → recipes[j]? = some rj →
      p ∈ ri.outputs → p ∈ rj.outputs →
      (buildAux recipes idx st).2 = true := by
  intro recipes
  induction recipes with
  | nil =>
    intro idx st i j p ri rj _ hgi _ _ _
    simp at hgi
  | cons r rest ih =>
    intro idx st i j p ri rj hij hgi hgj hpi hpj
    cases i with
    | zero =>
      rw [List.getElem?_cons_zero, Option.some.injEq] at hgi
      cases j with
      | zero => omega
      | succ j2 =>
        rw [List.getElem?_cons_succ] at hgj
        show (buildAux rest (idx + 1) _).2 = true
        refine buildAux_warn_trigger rest (idx + 1) _ p ?_
          ⟨rj, getSome_mem rest j2 rj hgj, hpj⟩
        rw [foldOuts_lookup r.outputs st idx p, if_pos (by rw [← hgi] at hpi; exact hpi)]
        rfl
    | succ i2 =>
      cases j with
      | zero => omega
      | succ j2 =>
        rw [List.getElem?_cons_succ] at hgi hgj
        exact ih (idx + 1) _ i2 j2 p ri rj (by omega) hgi hgj hpi hpj

/-- C4: after loading, the output lookup maps every duplicated output
path to the recipe loaded last (in particular later than either member
of a duplicating pair), the duplicate-output warning is recorded, and
the construction returns normally (warning, not error). -/
theorem claim_C4_output_lookup (recipes : List Recipe) :
    (∀ p, lookupOut (buildOutputLookup recipes).1 p = lastIdx p recipes) ∧
    (∀ (i j : Nat) (p : String) (ri rj : Recipe), i < j →
      recipes[i]? = some ri → recipes[j]? = some rj →
      p ∈ ri.outputs → p ∈ rj.outputs →
      (∃ k rk, lookupOut (buildOutputLookup recipes).1 p = some k ∧ j ≤ k ∧
        recipes[k]? = some rk ∧ p ∈ rk.outputs) ∧
      (buildOutputLookup recipes).2 = true) := by
  have hlook : ∀ p, lookupOut (buildOutputLookup recipes).1 p = lastIdx p recipes := by
    intro p
    show lookupOut ((buildAux recipes 0 ([], false)).1) p = _
    rw [buildAux_lookup recipes 0 ([], false) p]
    cases hli : lastIdx p recipes with
    | some k => simp
    | none => rfl
  refine ⟨hlook, ?_⟩
  intro i j p ri rj hij hgi hgj hpi hpj
  constructor
  · obtain ⟨k, hk, hjk⟩ := lastIdx_ge recipes p j rj hgj hpj
    obtain ⟨rk, hrk, hrkout⟩ := lastIdx_spec recipes p k hk
    exact ⟨k, rk, by rw [hlook p, hk], hjk, hrk, hrkout⟩
  · exact buildAux_warn_dup recipes 0 ([], false) i j p ri rj hij hgi hgj hpi hpj

/-- Witness for C4 at the toxic-output scenario: both recipes produce
`output.tsv`; the lookup resolves to the later checkpoint and the
warning fires. -/
theorem claim_C4_output_lookup_witness :
    (∃ k rk, lookupOut (buildOutputLookup [toxicRecipe1, toxicRecipe2]).1 ("output.tsv")
        = some k ∧ 1 ≤ k ∧
      ([toxicRecipe1, toxicRecipe2] : List Recipe)[k]? = some rk ∧
      ("output.tsv") ∈ rk.outputs) ∧
    (buildOutputLookup [toxicRecipe1, toxicRecipe2]).2 = true :=
  (claim_C4_output_lookup [toxicRecipe1, toxicRecipe2]).2 0 1 ("output.tsv")
    toxicRecipe1 toxicRecipe2 (by decide) (by rfl) (by rfl) (by decide) (by decide)

/-- One walk step never drops accumulated nodes (fold version). -/
theorem dagGo_fold_subset (sr : SolvedRules) (fuel : Nat) (flag : Bool)
    (hrec : ∀ (acc : List Nat) (i x : Nat), x ∈ acc → x ∈ dagGo sr fuel acc flag i) :
    ∀ (l : List Nat) (acc : List Nat) (x : Nat), x ∈ acc →
      x ∈ List.foldl (fun acc2 j => if j ∈ acc2 then acc2
        else if flag then dagGo sr fuel (j :: acc2) flag j else j :: acc2) acc l := by
  intro l
  induction l with
  | nil => intro acc x hx; exact hx
  | cons j rest ihl =>
    intro acc x hx
    rw [List.foldl_cons]
    apply ihl
    by_cases hj : j ∈ acc
    · rw [if_pos hj]
      exact hx
    · rw [if_neg hj]
      by_cases hf : flag = true
      · rw [if_pos hf]
        exact hrec (j :: acc) j x (List.mem_cons_of_mem j hx)
      · rw [if_neg hf]
        exact List.mem_cons_of_mem j hx

/-- The walk never drops accumulated nodes. -/
theorem dagGo_subset (sr : SolvedRules) :
    ∀ (fuel : Nat) (acc : List Nat) (flag : Bool) (i x : Nat),
      x ∈ acc → x ∈ dagGo sr fuel acc flag i := by
  intro fuel
  induction fuel with
  | zero => intro acc flag i x hx; exact hx
  | succ fuel ih =>
    intro acc flag i x hx
    exact dagGo_fold_subset sr fuel flag (fun a i2 x2 h2 => ih a flag i2 x2 h2)
      (producers sr i) acc x hx

/-- Every processed producer ends up accumulated (fold version). -/
theorem dagGo_fold_direct (sr : SolvedRules) (fuel : Nat) (flag : Bool)
    (hrec : ∀ (acc : List Nat) (i x : Nat), x ∈ acc → x ∈ dagGo sr fuel acc flag i) :
    ∀ (l : List Nat) (acc : List Nat) (j : Nat), j ∈ l →
      j ∈ List.foldl (fun acc2 j => if j ∈ acc2 then acc2
        else if flag then dagGo sr fuel (j :: acc2) flag j else j :: acc2) acc l := by
  intro l
  induction l with
  | nil => intro acc j hj; simp at hj
  | cons a rest ihl =>
    intro acc j hj
    rw [List.foldl_cons]
    rcases List.mem_cons.mp hj with hja | hja
    · apply dagGo_fold_subset sr fuel flag hrec
      by_cases ha : a ∈ acc
      · rw [if_pos ha, hja]
        exact ha
      · rw [if_neg ha]
        by_cases hf : flag = true
        · rw [if_pos hf, hja]
          exact hrec (a :: acc) a a (List.mem_cons_self a acc)
        · rw [if_neg hf, hja]
          exact List.mem_cons_self a acc
    · exact ihl _ j hja

/-- Every direct producer of the queried recipe is accumulated. -/
theorem dagGo_direct (sr : SolvedRules) (fuel : Nat) (acc : List Nat) (flag : Bool)
    (i : Nat) : ∀ j ∈ producers sr i, j ∈ dagGo sr (fuel + 1) acc flag i := by
  intro j hj
  exact dagGo_fold_direct sr fuel flag
    (fun a i2 x2 h2 => dagGo_subset sr fuel a flag i2 x2 h2) (producers sr i) acc j hj

/-- Avoiding a superset is avoiding the subset. -/
theorem reachAvoid_anti (sr : SolvedRules) (vis vis2 : List Nat)
    (hsub : ∀ y ∈ vis, y ∈ vis2) :
    ∀ i x, ReachAvoid sr vis2 i x → ReachAvoid sr vis i x := by
  intro i x h
  induction h with
  | single hj hnv => exact ReachAvoid.single hj (fun hc => hnv (hsub _ hc))
  | head hj hnv _ ih2 => exact ReachAvoid.head hj (fun hc => hnv (hsub _ hc)) ih2

/-- Soundness of the full walk (fold version): everything accumulated
beyond the initial set is reachable through unvisited nodes. -/
theorem dagGo_fold_sound (sr : SolvedRules) (fuel : Nat)
    (hrec : ∀ (acc : List Nat) (i x : Nat), x ∈ dagGo sr fuel acc true i →
      x ∈ acc ∨ ReachAvoid sr acc i x)
    (acc : List Nat) (i : Nat) :
    ∀ (l : List Nat), (∀ j ∈ l, j ∈ producers sr i) →
      ∀ (acc2 : List Nat), (∀ y ∈ acc, y ∈ acc2) →
      (∀ y ∈ acc2, y ∈ acc ∨ ReachAvoid sr acc i y) →
      ∀ x, x ∈ List.foldl (fun acc2 j => if j ∈ acc2 then acc2
          else if true then dagGo sr fuel (j :: acc2) true j else j :: acc2) acc2 l →
        x ∈ acc ∨ ReachAvoid sr acc i x := by
  intro l
  induction l with
  | nil =>
    intro _ acc2 _ hinv x hx
    exact hinv x hx
  | cons j rest ihl =>
    intro hl acc2 hsub hinv x hx
    rw [List.foldl_cons] at hx
    have hjp : j ∈ producers sr i := hl j (List.mem_cons_self j rest)
    have hrest : ∀ j2 ∈ rest, j2 ∈ producers sr i :=
      fun j2 h2 => hl j2 (List.mem_cons_of_mem j h2)
    by_cases hj : j ∈ acc2
    · rw [if_pos hj] at hx
      exact ihl hrest acc2 hsub hinv x hx
    · rw [if_neg hj, if_pos rfl] at hx
      have hjacc : j ∉ acc := fun hc => hj (hsub j hc)
      have hsub2 : ∀ y ∈ acc, y ∈ dagGo sr fuel (j :: acc2) true j :=
        fun y hy => dagGo_subset sr fuel (j :: acc2) true j y
          (List.mem_cons_of_mem j (hsub y hy))
      have hinv2 : ∀ y ∈ dagGo sr fuel (j :: acc2) true j,
          y ∈ acc ∨ ReachAvoid sr acc i y := by
        intro y hy
        rcases hrec (j :: acc2) j y hy with hy2 | hy2
        · rcases List.mem_cons.mp hy2 with hy3 | hy3
          · exact Or.inr (hy3 ▸ ReachAvoid.single hjp hjacc)
          · exact hinv y hy3
        · have hy3 : ReachAvoid sr acc j y :=
            reachAvoid_anti sr acc (j :: acc2) (fun z hz => List.mem_cons_of_mem j (hsub z hz))
              j y hy2
          exact Or.inr (ReachAvoid.head hjp hjacc hy3)
      exact ihl hrest (dagGo sr fuel (j :: acc2) true j) hsub2 hinv2 x hx

/-- Soundness of the walk. -/
theorem dagGo_sound (sr : SolvedRules) :
    ∀ (fuel : Nat) (acc : List Nat) (i x : Nat),
      x ∈ dagGo sr fuel acc true i → x ∈ acc ∨ ReachAvoid sr acc i x := by
  intro fuel
  induction fuel with
  | zero => intro acc i x hx; exact Or.inl hx
  | succ fuel ih =>
    intro acc i x hx
    exact dagGo_fold_sound sr fuel ih acc i (producers sr i) (fun j h => h) acc
      (fun y hy => hy) (fun y hy => Or.inl hy) x hx

/-- A pointwise-stronger filter keeps at most as many elements. -/
theorem filter_length_mono {α : Type} (p q : α → Bool)
    (hpq : ∀ a, p a = true → q a = true) :
    ∀ l : List α, (l.filter p).length ≤ (l.filter q).length := by
  intro l
  induction l with
  | nil => exact Nat.le_refl 0
  | cons a rest ih =>
    rw [List.filter_cons, List.filter_cons]
    cases hp : p a with
    | false =>
      rw [if_neg (fun h => Bool.noConfusion h)]
      cases hq : q a with
      | false =>
        rw [if_neg (fun h => Bool.noConfusion h)]
        exact ih
      | true =>
        rw [if_pos rfl, List.length_cons]
        exact Nat.le_succ_of_le ih
    | true =>
      rw [if_pos rfl, if_pos (hpq a hp), List.length_cons, List.length_cons]
      exact Nat.succ_le_succ ih

/-- Growing the visited set cannot grow the uncovered count. -/
theorem uncov_anti (sr : SolvedRules) (vis vis2 : List Nat)
    (hsub : ∀ y ∈ vis, y ∈ vis2) : uncov sr vis2 ≤ uncov sr vis := by
  apply filter_length_mono
  intro a ha
  have h2 : a ∉ vis2 := of_decide_eq_true ha
  exact decide_eq_true (fun hc => h2 (hsub a hc))

/-- Visiting a fresh image node strictly shrinks the uncovered count
(helper over a duplicate-free carrier). -/
theorem filter_cons_notmem_length (vis : List Nat) (j : Nat) (hnv : j ∉ vis) :
    ∀ l : List Nat, l.Nodup → j ∈ l →
      (l.filter (fun y => decide (y ∉ j :: vis))).length + 1 ≤
        (l.filter (fun y => decide (y ∉ vis))).length := by
  intro l
  induction l with
  | nil => intro _ h; simp at h
  | cons a rest ih =>
    intro hnd hj
    rw [List.nodup_cons] at hnd
    rw [List.filter_cons, List.filter_cons]
    rcases List.mem_cons.mp hj with hja | hja
    · subst hja
      rw [if_neg (fun hc => (of_decide_eq_true hc) (List.mem_cons_self j vis)),
        if_pos (decide_eq_true hnv), List.length_cons]
      have hmono := filter_length_mono (fun y => decide (y ∉ j :: vis))
        (fun y => decide (y ∉ vis))
        (fun a ha => decide_eq_true
          (fun hc => (of_decide_eq_true ha) (List.mem_cons_of_mem j hc))) rest
      omega
    · have hne : a ≠ j := fun hc => hnd.1 (hc ▸ hja)
      by_cases hav : a ∈ vis
      · rw [if_neg (fun hc => (of_decide_eq_true hc) (List.mem_cons_of_mem j hav)),
          if_neg (fun hc => (of_decide_eq_true hc) hav)]
        exact ih hnd.2 hja
      · rw [if_pos (decide_eq_true (show a ∉ j :: vis from fun hc => by
            rcases List.mem_cons.mp hc with h2 | h2
            · exact hne h2
            · exact hav h2)),
          if_pos (decide_eq_true hav), List.length_cons, List.length_cons]
        have := ih hnd.2 hja
        omega

/-- Visiting a fresh image node strictly shrinks the uncovered count. -/
theorem uncov_cons (sr : SolvedRules) (vis : List Nat) (j : Nat)
    (hjim : j ∈ imageNodes sr) (hnv : j ∉ vis) :
    uncov sr (j :: vis) + 1 ≤ uncov sr vis :=
  filter_cons_notmem_length vis j hnv (imageNodes sr) (List.nodup_dedup _) hjim

/-- A lookup hit lands in the value image. -/
theorem lookupOut_some_mem :
    ∀ (m : List (String × Nat)) (p : String) (j : Nat),
      lookupOut m p = some j → j ∈ m.map Prod.snd := by
  intro m
  induction m with
  | nil => intro p j h; exact Option.noConfusion h
  | cons qi rest ih =>
    intro p j h
    obtain ⟨q, i⟩ := qi
    rw [lookupOut_cons] at h
    rw [List.map_cons]
    by_cases hq : q = p
    · rw [if_pos hq, Option.some.injEq] at h
      subst h
      show i ∈ i :: List.map Prod.snd rest
      exact List.mem_cons_self i _
    · rw [if_neg hq] at h
      exact List.mem_cons_of_mem _ (ih p j h)

/-- Every producer is an image node. -/
theorem producers_sub_image (sr : SolvedRules) (i : Nat) :
    ∀ j ∈ producers sr i, j ∈ imageNodes sr := by
  intro j hj
  unfold producers at hj
  obtain ⟨p, -, hlp⟩ := List.mem_filterMap.mp hj
  unfold imageNodes
  rw [List.mem_dedup]
  exact lookupOut_some_mem sr.output_lookup p j hlp

/-- With enough fuel, the accumulated set is closed under the producer
relation away from the initial set (fold version). -/
theorem dagGo_fold_closed (sr : SolvedRules) (fuel : Nat)
    (ihdag : ∀ (acc : List Nat) (i : Nat), uncov sr acc + 1 ≤ fuel →
      ∀ x, x ∈ dagGo sr fuel acc true i → x ∉ acc →
        ∀ j2 ∈ producers sr x, j2 ∈ dagGo sr fuel acc true i) :
    ∀ (l : List Nat) (acc acc2 : List Nat) (i : Nat),
      (∀ j ∈ l, j ∈ producers sr i) →
      uncov sr acc2 ≤ fuel →
      (∀ y ∈ acc, y ∈ acc2) →
      (∀ x ∈ acc2, x ∉ acc → ∀ j2 ∈ producers sr x, j2 ∈ acc2) →
      ∀ x, x ∈ List.foldl (fun acc2 j => if j ∈ acc2 then acc2
          else if true then dagGo sr fuel (j :: acc2) true j else j :: acc2) acc2 l →
        x ∉ acc → ∀ j2 ∈ producers sr x,
          j2 ∈ List.foldl (fun acc2 j => if j ∈ acc2 then acc2
            else if true then dagGo sr fuel (j :: acc2) true j else j :: acc2) acc2 l := by
  intro l
  induction l with
  | nil =>
    intro acc acc2 i _ _ _ hcl x hx hnacc j2 hj2
    exact hcl x hx hnacc j2 hj2
  | cons j rest ihl =>
    intro acc acc2 i hl hfu hsub hcl
    rw [List.foldl_cons]
    have hrest : ∀ j2 ∈ rest, j2 ∈ producers sr i :=
      fun j2 h2 => hl j2 (List.mem_cons_of_mem j h2)
    by_cases hj : j ∈ acc2
    · rw [if_pos hj]
      exact ihl acc acc2 i hrest hfu hsub hcl
    · rw [if_neg hj, if_pos rfl]
      have hjim : j ∈ imageNodes sr :=
        producers_sub_image sr i j (hl j (List.mem_cons_self j rest))
      have hfu2 : uncov sr (j :: acc2) + 1 ≤ fuel :=
        Nat.le_trans (uncov_cons sr acc2 j hjim hj) hfu
      have hfpos : 1 ≤ fuel := by omega
      have hsubF : ∀ y ∈ acc2, y ∈ dagGo sr fuel (j :: acc2) true j :=
        fun y hy => dagGo_subset sr fuel (j :: acc2) true j y (List.mem_cons_of_mem j hy)
      have hsub2 : ∀ y ∈ acc, y ∈ dagGo sr fuel (j :: acc2) true j :=
        fun y hy => hsubF y (hsub y hy)
      have hclF : ∀ x ∈ dagGo sr fuel (j :: acc2) true j, x ∉ acc →
          ∀ j2 ∈ producers sr x, j2 ∈ dagGo sr fuel (j :: acc2) true j := by
        intro x hx hnacc j2 hj2
        by_cases hxj : x ∈ j :: acc2
        · rcases List.mem_cons.mp hxj with hxa | hxa
          · obtain ⟨f2, hf2⟩ : ∃ f2, fuel = f2 + 1 := ⟨fuel - 1, by omega⟩
            rw [hf2]
            exact dagGo_direct sr f2 (j :: acc2) true j j2 (by rw [← hxa]; exact hj2)
          · exact hsubF j2 (hcl x hxa hnacc j2 hj2)
        · exact ihdag (j :: acc2) j hfu2 x hx hxj j2 hj2
      have hfuF : uncov sr (dagGo sr fuel (j :: acc2) true j) ≤ fuel :=
        Nat.le_trans (uncov_anti sr acc2 _ hsubF) hfu
      exact ihl acc (dagGo sr fuel (j :: acc2) true j) i hrest hfuF hsub2 hclF

/-- With enough fuel, the walk result is closed under the producer
relation away from the initial set. -/
theorem dagGo_closed (sr : SolvedRules) :
    ∀ (fuel : Nat) (acc : List Nat) (i : Nat), uncov sr acc + 1 ≤ fuel →
      ∀ x, x ∈ dagGo sr fuel acc true i → x ∉ acc →
        ∀ j2 ∈ producers sr x, j2 ∈ dagGo sr fuel acc true i := by
  intro fuel
  induction fuel with
  | zero => intro acc i h; exact absurd h (by omega)
  | succ fuel ih =>
    intro acc i hfu
    exact dagGo_fold_closed sr fuel ih (producers sr i) acc acc i (fun j h => h)
      (by omega) (fun y hy => hy) (fun x hx hnacc j2 hj2 => absurd hx hnacc)

/-- Walking an avoided-set path from an accumulated unvisited node stays
inside a producer-closed set. -/
theorem reach_into (sr : SolvedRules) (acc F : List Nat)
    (hclosed : ∀ x, x ∈ F → x ∉ acc → ∀ j ∈ producers sr x, j ∈ F) :
    ∀ a x, ReachAvoid sr acc a x → a ∈ F → a ∉ acc → x ∈ F := by
  intro a x h
  induction h with
  | single hj hnv =>
    intro ha hnacc
    exact hclosed _ ha hnacc _ hj
  | head hj hnv _ ih2 =>
    intro ha hnacc
    exact ih2 (hclosed _ ha hnacc _ hj) hnv

/-- Completeness of the walk: with enough fuel everything reachable
through unvisited nodes is accumulated. -/
theorem dagGo_complete (sr : SolvedRules) (fuel : Nat) (acc : List Nat) (i : Nat)
    (hfuel : uncov sr acc + 1 ≤ fuel) :
    ∀ x, ReachAvoid sr acc i x → x ∈ dagGo sr fuel acc true i := by
  have hcl := dagGo_closed sr fuel acc i hfuel
  obtain ⟨f2, hf2⟩ : ∃ f2, fuel = f2 + 1 := ⟨fuel - 1, by omega⟩
  intro x hx
  cases hx with
  | single hj hnv =>
    rw [hf2]
    exact dagGo_direct sr f2 acc true i x hj
  | head hj hnv hra =>
    refine reach_into sr acc (dagGo sr fuel acc true i) hcl _ x hra ?_ hnv
    rw [hf2]
    exact dagGo_direct sr f2 acc true i _ hj

/-- Avoiding nothing is plain reachability (forward). -/
theorem reach_of_reachAvoid_nil (sr : SolvedRules) :
    ∀ i x, ReachAvoid sr [] i x → Reach sr i x := by
  intro i x h
  induction h with
  | single hj _ => exact Reach.single hj
  | head hj _ _ ih2 => exact Reach.head hj ih2

/-- Avoiding nothing is plain reachability (backward). -/
theorem reachAvoid_nil_of_reach (sr : SolvedRules) :
    ∀ i x, Reach sr i x → ReachAvoid sr [] i x := by
  intro i x h
  induction h with
  | single hj => exact ReachAvoid.single hj (by simp)
  | head hj _ ih2 => exact ReachAvoid.head hj (by simp) ih2

/-- Membership after a non-recursive pass: the initial set plus the
processed producers. -/
theorem dagGo_fold_false (sr : SolvedRules) (fuel : Nat) :
    ∀ (l : List Nat) (acc : List Nat) (x : Nat),
      (x ∈ List.foldl (fun acc2 j => if j ∈ acc2 then acc2
        else if false then dagGo sr fuel (j :: acc2) false j else j :: acc2) acc l) ↔
      (x ∈ acc ∨ x ∈ l) := by
  intro l
  induction l with
  | nil => intro acc x; simp
  | cons j rest ihl =>
    intro acc x
    rw [List.foldl_cons]
    by_cases hj : j ∈ acc
    · rw [if_pos hj, ihl]
      constructor
      · rintro (h | h)
        · exact Or.inl h
        · exact Or.inr (List.mem_cons_of_mem j h)
      · rintro (h | h)
        · exact Or.inl h
        · rcases List.mem_cons.mp h with h2 | h2
          · exact Or.inl (h2 ▸ hj)
          · exact Or.inr h2
    · rw [if_neg hj, if_neg (fun h => Bool.noConfusion h), ihl]
      constructor
      · rintro (h | h)
        · rcases List.mem_cons.mp h with h2 | h2
          · exact Or.inr (by rw [h2]; exact List.mem_cons_self j rest)
          · exact Or.inl h2
        · exact Or.inr (List.mem_cons_of_mem j h)
      · rintro (h | h)
        · exact Or.inl (List.mem_cons_of_mem j h)
        · rcases List.mem_cons.mp h with h2 | h2
          · exact Or.inl (by rw [h2]; exact List.mem_cons_self j acc)
          · exact Or.inr h2

/-- C1 (amended): `add_dag_from_leaf` accumulates, with the flag set,
exactly the recipes transitively reachable from the queried recipe
through the output lookup (each visited at most once, the queried
recipe itself never inserted), and with the flag clear exactly the
direct producers of the queried recipe's inputs; on the log scenario
with rule `a` (output `x`) and checkpoint `b` (input `x`, output `y`),
the call on `b` yields `{a}` for both flag values, and on the
three-recipe chain of the unit tests it yields the expected sets. -/
theorem claim_C1_add_dag_from_leaf (sr : SolvedRules) (i x : Nat) :
    (x ∈ add_dag_from_leaf sr i true ↔ Reach sr i x) ∧
    (x ∈ add_dag_from_leaf sr i false ↔ x ∈ producers sr i) ∧
    add_dag_from_leaf abSolved 1 false = [0] ∧
    add_dag_from_leaf abSolved 1 true = [0] ∧
    add_dag_from_leaf dagFixture 2 false = [1] ∧
    add_dag_from_leaf dagFixture 2 true = [0, 1] := by
  refine ⟨⟨?_, ?_⟩, ?_, by rfl, by rfl, by rfl, by rfl⟩
  · intro hx
    rcases dagGo_sound sr ((imageNodes sr).length + 1) [] i x hx with h | h
    · simp at h
    · exact reach_of_reachAvoid_nil sr i x h
  · intro hr
    refine dagGo_complete sr ((imageNodes sr).length + 1) [] i ?_ x
      (reachAvoid_nil_of_reach sr i x hr)
    have hle := List.length_filter_le (fun j => decide (j ∉ ([] : List Nat))) (imageNodes sr)
    unfold uncov
    omega
  · have h := dagGo_fold_false sr (imageNodes sr).length (producers sr i) [] x
    refine Iff.trans ?_ (h.trans (by simp))
    exact Iff.rfl

/-- Counterexample to C1 as stated: on the three-recipe chain the
include_self=false call accumulates only the direct producer, not the
reachable set minus the target, and with the flag set the queried
recipe itself is still excluded even though the claim would include it. -/
theorem claim_C1_counterexample :
    (¬ ∀ x, x ∈ add_dag_from_leaf dagFixture 2 false ↔
        (x ≠ 2 ∧ Reach dagFixture 2 x)) ∧
    1 ∉ add_dag_from_leaf abSolved 1 true := by
  constructor
  · intro hcl
    have h10 : (1 : Nat) ∈ producers dagFixture 2 := by decide
    have h01 : (0 : Nat) ∈ producers dagFixture 1 := by decide
    have h0 : Reach dagFixture 2 0 := Reach.head h10 (Reach.single h01)
    have h0mem := (hcl 0).mpr ⟨by decide, h0⟩
    have heq : add_dag_from_leaf dagFixture 2 false = [1] := by rfl
    rw [heq] at h0mem
    simp at h0mem
  · decide

end SnakemakeUT
